import Mathlib

/-!
Verification model of the fuzzy token-indexed search engine of the ELIE
repository (modules mfnb/labeldata.py and mfnb/utils.py).

Texts are modelled as lists of characters.  Python regular-expression
facilities are modelled at the level of their observable behaviour on the
patterns the source actually builds:
* the token pattern produced by get_word_tokenize_pattern(min_len) matches
  exactly the maximal runs of word characters of length at least min_len;
* the fuzzy pattern built in DB.get_token_matches from mismatch_rule accepts
  exactly the strings within the computed edit-distance budget of the query
  token (the regex module's bounded-edit-distance semantics).
Word characters are modelled on the ASCII range (alphanumeric or underscore),
unicodedata-based accent stripping by a table of common Latin letters plus
removal of combining marks.  Weights are modelled by exact rationals; the
floating-point numbers of the source are narrower, which only matters for
round-off, not for any of the structural properties proved here.
-/

/-- Models the character class of a regex word character, on ASCII input. -/
def isWordChar (c : Char) : Bool := c.isAlphanum || c = '_'

/-- Models the regex whitespace class used by WS_pattern, on ASCII input. -/
def isSpaceChar (c : Char) : Bool :=
  c = ' ' || c = '\t' || c = '\n' || c = '\x0d' || c = '\x0b' || c = '\x0c'

/-- A combining diacritical mark (Unicode category Mn, common block). -/
def isCombiningMark (c : Char) : Bool := 0x300 ≤ c.toNat && c.toNat ≤ 0x36F

/-- Models the NFD decomposition step of utils.strip_accents on common
precomposed Latin letters: the letter is replaced by its base letter (its
combining mark being dropped by the Mn filter).  Identity elsewhere. -/
def stripAccentChar (c : Char) : Char :=
  if c ∈ ['à', 'á', 'â', 'ã', 'ä', 'å'] then 'a'
  else if c ∈ ['è', 'é', 'ê', 'ë'] then 'e'
  else if c ∈ ['ì', 'í', 'î', 'ï'] then 'i'
  else if c ∈ ['ò', 'ó', 'ô', 'õ', 'ö'] then 'o'
  else if c ∈ ['ù', 'ú', 'û', 'ü'] then 'u'
  else if c = 'ç' then 'c'
  else if c = 'ñ' then 'n'
  else c

/-- Models utils.strip_accents: NFD-normalize and drop combining marks. -/
def strip_accents (s : List Char) : List Char :=
  (s.map stripAccentChar).filter (fun c => !(isCombiningMark c))

/-- Lowercasing, as applied by str.lower() before tokenization (ASCII). -/
def lowerChars (s : List Char) : List Char := s.map Char.toLower

/-- A token is a normalized word extracted from a text. -/
abbrev Token := List Char

/-- Accumulator pass splitting a text into maximal runs of word characters.
`cur` holds the current run, reversed. -/
def wordRunsAux (cur : List Char) : List Char → List Token
  | [] => if cur.isEmpty then [] else [cur.reverse]
  | c :: cs =>
    if isWordChar c then wordRunsAux (c :: cur) cs
    else if cur.isEmpty then wordRunsAux [] cs
    else cur.reverse :: wordRunsAux [] cs

/-- The maximal runs of word characters of a text, in order. -/
def wordRuns (s : List Char) : List Token := wordRunsAux [] s

/-- Models nltk.regexp_tokenize with the pattern from
get_word_tokenize_pattern(minLen): maximal word-character runs of length at
least minLen, on the already lower-cased, accent-stripped text. -/
def regexpTokenize (minLen : Nat) (s : List Char) : List Token :=
  (wordRuns s).filter (fun t => decide (minLen ≤ t.length))

/-- The composite tokenization applied throughout labeldata.py:
regexp_tokenize(strip_accents(s.lower()), token_pattern). -/
def tokensOf (minLen : Nat) (s : List Char) : List Token :=
  regexpTokenize minLen (strip_accents (lowerChars s))

/-- Fuel-indexed Levenshtein distance; the fuel only needs to dominate the
total length of the two strings.  Structural recursion keeps it computable
by the kernel. -/
def levF : Nat → List Char → List Char → Nat
  | 0, a, b => a.length + b.length
  | _ + 1, [], b => b.length
  | _ + 1, a, [] => a.length
  | f + 1, x :: xs, y :: ys =>
    if x = y then levF f xs ys
    else 1 + min (levF f xs ys) (min (levF f (x :: xs) ys) (levF f xs (y :: ys)))

/-- Models the leven package distance function: the edit distance of two strings. -/
def leven (a b : List Char) : Nat := levF (a.length + b.length) a b

/-- Fuel-indexed floor of the base-2 logarithm (fuel dominates the input). -/
def intLog2F : Nat → Nat → Nat
  | 0, _ => 0
  | f + 1, n => if n ≤ 1 then 0 else intLog2F f (n / 2) + 1

/-- Models int(log(n, 2)) of utils.mismatch_rule for n at least 1: the floor
of the base-2 logarithm. -/
def intLog2 (n : Nat) : Nat := intLog2F n n

/-- Models utils.mismatch_rule, read as the number of edit errors the
returned fuzzy-regex fragment allows: 0 stands for the empty fragment
(exact match), e for the fragment allowing at most e errors. -/
def mismatch_rule (s : Token) : Nat :=
  if s.isEmpty then 0
  else
    let e : Int := (intLog2 s.length : Int) - 1
    if e < 1 then 0 else e.toNat

/-- Models the test pattern.fullmatch(token) of DB.get_token_matches for the
fuzzy pattern built from query token q and an arbitrary budget function f:
the regex module accepts exactly the tokens within f q edit errors of q. -/
def acceptsWith (f : Token → Nat) (q t : Token) : Bool :=
  decide (leven t q ≤ f q)

/-- The acceptance test with the default budget function mismatch_rule. -/
def fuzzyAccepts (q t : Token) : Bool := acceptsWith mismatch_rule q t

/-- Models the identity score computed in DB.get_token_matches:
d = levenshtein(token, value); l = max of the lengths;
identity = 0 if d > l else 1 - d/l. -/
def identityOf (t q : Token) : Rat :=
  let d := leven t q
  let l := max t.length q.length
  if l < d then 0 else 1 - (d : Rat) / (l : Rat)

/-- Dictionary lookup on an association list (Python dict access). -/
def alookup [DecidableEq α] (k : α) : List (α × β) → Option β
  | [] => none
  | p :: rest => if p.1 = k then some p.2 else alookup k rest

/-- A database element (Label, CollectingEvent, or alike): a unique string
identifier plus named text attributes in key order.  An attribute stored as
`none` models a Python None value (Label(ID, text=None)); this is distinct
from the empty string. -/
structure Rec where
  ID : String
  fields : List (String × Option (List Char))
deriving DecidableEq

/-- Models getattr(x, key): the "ID" key yields the identifier, other keys
are looked up among the attributes.  `none` models both a None value and a
missing attribute, since every later use of either raises. -/
def Rec.attr (r : Rec) (key : String) : Option (List Char) :=
  if key = "ID" then some r.ID.data
  else
    match alookup key r.fields with
    | some v => v
    | none => none

/-- Models a compiled Mask object: per attribute name, one pattern whose
matches are deleted.  Patterns are modelled as literal strings (a subclass
of the regular expressions the source compiles), deleted occurrence by
occurrence from the left as regex sub("") does. -/
structure Mask where
  rules : List (String × List Char)
deriving DecidableEq

/-- Left-to-right deletion of the non-overlapping occurrences of pat; the
fuel only needs to dominate the length of the text. -/
def maskSubF (pat : List Char) : Nat → List Char → List Char
  | 0, s => s
  | _ + 1, [] => []
  | f + 1, c :: cs =>
    if !pat.isEmpty && pat.isPrefixOf (c :: cs) then
      maskSubF pat f (List.drop pat.length (c :: cs))
    else c :: maskSubF pat f cs

/-- Models Mask.mask(key, value): apply the pattern recorded for key, if
any (the KeyError branch returns the value unchanged). -/
def Mask.mask (m : Mask) (key : String) (v : List Char) : List Char :=
  match alookup key m.rules with
  | some pat => maskSubF pat v.length v
  | none => v

/-- Applying the optional mask of the index configuration to one attribute
value (None masks leave the value unchanged; get_corpus and get_item_tokens
normalize None to an empty mask list and a Mask object to a one-mask list,
so a single optional mask covers the source's uses). -/
def maskAll (masks : Option Mask) (key : String) (v : List Char) : List Char :=
  match masks with
  | none => v
  | some m => m.mask key v

/-- Sequencing of optional values; `none` models the first raised error. -/
def seqOpt : List (Option α) → Option (List α)
  | [] => some []
  | none :: _ => none
  | some a :: rest => (seqOpt rest).map (a :: ·)

/-- The parameters stored by make_index: the method, the token pattern
(represented by the min_len that generates it), the resolved keys and the
masks. -/
structure Params where
  method : Nat
  min_len : Nat
  keys : List String
  masks : Option Mask
deriving DecidableEq

/-- The masked text of each selected attribute of a record, in key order;
none models the error raised as soon as a value is None (the TypeError of
the join in get_corpus, the AttributeError of lower() in get_item_tokens). -/
def recFieldTexts (P : Params) (r : Rec) : Option (List (List Char)) :=
  seqOpt (P.keys.map (fun k => (r.attr k).map (fun v => maskAll P.masks k v)))

/-- Models str.join: the values joined by a newline. -/
def joinNL : List (List Char) → List Char
  | [] => []
  | [v] => v
  | v :: vs => v ++ '\n' :: joinNL vs

/-- Models the per-record text yielded by DB.get_corpus: the masked
attribute values joined by a newline. -/
def get_corpus (P : Params) (r : Rec) : Option (List Char) :=
  (recFieldTexts P r).map joinNL

/-- The tokens the vectorizer extracts from a record's corpus text. -/
def corpusToks (P : Params) (r : Rec) : Option (List Token) :=
  (get_corpus P r).map (tokensOf P.min_len)

/-- Models DB.get_item_tokens: re-tokenize each selected attribute with the
stored parameters and concatenate. -/
def get_item_tokens (P : Params) (r : Rec) : Option (List Token) :=
  (recFieldTexts P r).map (fun vs => (vs.map (tokensOf P.min_len)).flatten)

/-- One step of Python dict construction: a record whose identifier is
already present replaces the stored value in place (last write wins, first
position kept), a new identifier is appended. -/
def upsert (acc : List Rec) (x : Rec) : List Rec :=
  if acc.any (fun y => y.ID = x.ID) then
    acc.map (fun y => if y.ID = x.ID then x else y)
  else acc ++ [x]

/-- Models the dict built by DB.__init__ from the value list: the records
in iteration order of self._dict. -/
def dbItems (vs : List Rec) : List Rec := vs.foldl upsert []

/-- Models DB.get / self._dict lookup by identifier. -/
def dbGet (items : List Rec) (id : String) : Option Rec :=
  items.find? (fun x => x.ID = id)

/-- Code-point comparison of tokens, as numpy sorts unicode strings. -/
def tokLE : Token → Token → Bool
  | [], _ => true
  | _ :: _, [] => false
  | a :: as, b :: bs => if a = b then tokLE as bs else decide (a.toNat ≤ b.toNat)

/-- Stable insertion into a sorted list. -/
def insLE (le : α → α → Bool) (x : α) : List α → List α
  | [] => [x]
  | y :: ys => if le x y then x :: y :: ys else y :: insLE le x ys

/-- Insertion sort (the vocabulary is sorted by the vectorizer). -/
def isort (le : α → α → Bool) (l : List α) : List α := l.foldr (insLE le) []

/-- First-occurrence deduplication (vocabulary collection order). -/
def dedupFirst [DecidableEq α] : List α → List α
  | [] => []
  | x :: xs => x :: (dedupFirst xs).filter (fun y => y ≠ x)

/-- The index state attached to a DB by make_index or load_index: the
token index (token to list of (record identifier, weight), in insertion
order), the stored parameters, and the per-record maximum scores.  The
source stores record objects; identifiers are equivalent because the
stored objects are exactly the dict values. -/
structure Indexed where
  index : List (Token × List (String × Rat))
  parameters : Params
  max_scores : List (String × Rat)
deriving DecidableEq

/-- The count weighting of method 1: the matrix entry of CountVectorizer,
the number of occurrences of the token in the record's corpus text. -/
def countScore (P : Params) (r : Rec) (t : Token) : Rat :=
  ((((corpusToks P r).getD []).count t : Nat) : Rat)

/-- Models DB.make_index over an abstract score matrix (method 1 yields the
count matrix; method 2 the TF-IDF matrix, whose real-valued entries share
the sign structure assumed by the theorems below).  Errors model, in source
order: the TypeError raised by joining a None value while the vectorizer
consumes the corpus, the empty-vocabulary ValueError of fit_transform, and
the KeyError raised while summing max scores if an item token had no stored
matrix entry. -/
def make_index (vs : List Rec) (P : Params) (score : Rec → Token → Rat) :
    Except String Indexed :=
  let items := dbItems vs
  match seqOpt (items.map (corpusToks P)) with
  | none => .error "TypeError: sequence item: expected str instance"
  | some tokLists =>
    let vocab := isort tokLE (dedupFirst tokLists.flatten)
    if vocab.isEmpty then .error "ValueError: empty vocabulary"
    else
      if items.all (fun x =>
          ((get_item_tokens P x).getD []).all (fun u => decide (score x u ≠ 0))) then
        .ok
          { index := vocab.map (fun t =>
              (t, items.filterMap (fun x =>
                if score x t ≠ 0 then some (x.ID, score x t) else none)))
            parameters := P
            max_scores := items.filterMap (fun x =>
              match get_item_tokens P x with
              | some [] => none
              | some ts => some (x.ID, (ts.map (score x)).sum)
              | none => none) }
      else .error "KeyError"

/-- A match tuple of DB.get_token_matches: matched index token, identity
score, stored weight. -/
abbrev Tup := Token × Rat × Rat

/-- The record filtering applied inside DB.get_token_matches; the source
holds the record object in the index, which is the dict value under its
identifier. -/
def filtOn (items : List Rec) (filt : Rec → Bool) (id : String) : Bool :=
  match dbGet items id with
  | some x => filt x
  | none => false

/-- The mismatch_rule argument of DB.search and DB.get_token_matches: None
(exact lookup) or a budget function for the fuzzy pattern. -/
abbrev MRule := Option (Token → Nat)

/-- All (record identifier, match tuple) pairs produced by one query token,
in source iteration order.  Exact branch: the index entry of the token
itself; fuzzy branch: every index entry whose token the fuzzy pattern
accepts, with its Levenshtein identity. -/
def rawTokenMatches (items : List Rec) (st : Indexed) (rule : MRule)
    (filt : Rec → Bool) (q : Token) : List (String × Tup) :=
  match rule with
  | none =>
    ((alookup q st.index).getD []).filterMap (fun p =>
      if filtOn items filt p.1 then some (p.1, (q, (1 : Rat), p.2)) else none)
  | some f =>
    (st.index.map (fun e =>
      if acceptsWith f q e.1 then
        e.2.filterMap (fun p =>
          if filtOn items filt p.1 then some (p.1, (e.1, identityOf e.1 q, p.2))
          else none)
      else [])).flatten

/-- Appending a value to the list stored under a key, creating the key at
the end on first use: the behaviour of defaultdict(list) appends. -/
def insertTup (acc : List (String × List Tup)) (id : String) (tp : Tup) :
    List (String × List Tup) :=
  match acc with
  | [] => [(id, [tp])]
  | (k, tps) :: rest =>
    if k = id then (k, tps ++ [tp]) :: rest else (k, tps) :: insertTup rest id tp

/-- Grouping a match list by record identifier, keeping both the first-use
key order and the per-key value order (Python dict/defaultdict iteration). -/
def groupByID (l : List (String × Tup)) : List (String × List Tup) :=
  l.foldl (fun acc p => insertTup acc p.1 p.2) []

/-- Strict comparison of match tuples by (identity, weight): the sort key
used to keep only the best match per record. -/
def tupGT (a b : Tup) : Bool :=
  decide (b.2.1 < a.2.1) || (a.2.1 = b.2.1 && decide (b.2.2 < a.2.2))

/-- The first maximum of a match list by (identity, weight): what the
stable descending sort of DB.get_token_matches places first. -/
def bestTup : List Tup → Tup
  | [] => ([], 0, 0)
  | x :: xs => xs.foldl (fun b t => if tupGT t b then t else b) x

/-- Models DB.get_token_matches: per matched record, the best match tuple
for the query token, in first-match record order. -/
def get_token_matches (items : List Rec) (st : Indexed) (rule : MRule)
    (filt : Rec → Bool) (q : Token) : List (String × Tup) :=
  (groupByID (rawTokenMatches items st rule filt q)).map (fun g => (g.1, bestTup g.2))

/-- The matched_tokens dict of DB.search: for every query token in order,
the token's matches are appended per record identifier. -/
def matchedGroups (items : List Rec) (st : Indexed) (rule : MRule)
    (filt : Rec → Bool) (qtoks : List Token) : List (String × List Tup) :=
  groupByID ((qtoks.map (get_token_matches items st rule filt)).flatten)

/-- Models list.remove(t): drop the first occurrence of t. -/
def removeFirst (t : Token) : List Token → List Token
  | [] => []
  | u :: us => if u = t then us else u :: removeFirst t us

/-- The consumption loop of DB.search for one record: each match tuple
removes one occurrence of its token from the record's own token list; a
tuple whose token has no occurrence left contributes nothing.  Returns the
accumulated raw score, the number of consumed matches, and the leftover
subject tokens.  With useId false (scoring different from "w") the identity
is folded to 1 before scoring. -/
def consume (useId : Bool) : List Tup → List Token → Rat × Nat × List Token
  | [], subj => (0, 0, subj)
  | (t, idn, sc) :: ms, subj =>
    if t ∈ subj then
      let r := consume useId ms (removeFirst t subj)
      (sc * (if useId then idn else 1) + r.1, r.2.1 + 1, r.2.2)
    else consume useId ms subj

/-- The hit_scoring dict of DB.search: per matched record in dict order,
the raw score and consumed-match count; records all of whose matches were
discarded never enter the dict.  Errors model self._dict raising on a
broken state and get_item_tokens calling lower() on a None value. -/
def scoreHits (items : List Rec) (P : Params) (useId : Bool) :
    List (String × List Tup) → Except String (List (String × Rat × Nat))
  | [] => .ok []
  | (id, ms) :: rest => do
    let x ← (dbGet items id).elim (.error "KeyError: unknown identifier") .ok
    let subj ← (get_item_tokens P x).elim
      (.error "AttributeError: NoneType object has no attribute lower") .ok
    let c := consume useId ms subj
    let tail ← scoreHits items P useId rest
    .ok (if c.2.1 = 0 then tail else (id, c.1, c.2.1) :: tail)

/-- Models utils.smoothen_white_spaces minus the strip: runs of whitespace
become one space (flag: previous character was part of a run). -/
def collapseWS : Bool → List Char → List Char
  | _, [] => []
  | prev, c :: cs =>
    if isSpaceChar c then
      if prev then collapseWS true cs else ' ' :: collapseWS true cs
    else c :: collapseWS false cs

/-- Models str.strip(): remove leading and trailing whitespace. -/
def stripWS (s : List Char) : List Char :=
  ((s.dropWhile isSpaceChar).reverse.dropWhile isSpaceChar).reverse

/-- Models utils.smoothen_white_spaces. -/
def smoothen_white_spaces (s : List Char) : List Char := collapseWS false (stripWS s)

/-- Models utils.simplify_str: smoothen whitespace, strip accents, lower. -/
def simplify_str (s : List Char) : List Char :=
  lowerChars (strip_accents (smoothen_white_spaces s))

/-- Models utils.get_norm_leven_dist with simplify=True, as called by
DB.search: the distance of the simplified strings over the longer length. -/
def get_norm_leven_dist (a b : List Char) : Rat :=
  let a2 := simplify_str a
  let b2 := simplify_str b
  (leven a2 b2 : Rat) / ((max a2.length b2.length : Nat) : Rat)

/-- The stored maximum score of a record (self._max_scores[ID]; matched
records always have an entry). -/
def lookupMax (st : Indexed) (id : String) : Rat :=
  (alookup id st.max_scores).getD 0

/-- Models self.get(ID).text as used by the "l" and "w+l" scorings; errors
model the KeyError of get and the AttributeError raised when
get_norm_leven_dist (called with simplify=True) reaches strip() on a None
text inside smoothen_white_spaces. -/
def resolveText (items : List Rec) (id : String) : Except String (List Char) :=
  match dbGet items id with
  | none => .error "KeyError: unknown identifier"
  | some x =>
    match x.attr "text" with
    | none => .error "AttributeError: NoneType object has no attribute strip"
    | some v => .ok v

/-- The result loop of DB.search for the "w" and "w+l" scorings: normalize
by the stored maximum score, weight by the matched-token fraction, and for
"w+l" by the normalized Levenshtein similarity of query and record text. -/
def scoresW (items : List Rec) (st : Indexed) (query : List Char) (qlen : Nat)
    (wl : Bool) : List (String × Rat × Nat) → Except String (List (String × Rat))
  | [] => .ok []
  | (id, raw, n) :: rest => do
    let s0 := raw / lookupMax st id * ((n : Rat) / (qlen : Rat))
    let s ← if wl then
        (resolveText items id).map (fun txt => s0 * (1 - get_norm_leven_dist query txt))
      else .ok s0
    let tail ← scoresW items st query qlen wl rest
    .ok ((id, s) :: tail)

/-- The result loop of DB.search for the "l" scoring: the score is the
normalized Levenshtein similarity of query and record text alone. -/
def scoresL (items : List Rec) (query : List Char) :
    List (String × Rat × Nat) → Except String (List (String × Rat))
  | [] => .ok []
  | (id, _, _) :: rest => do
    let txt ← resolveText items id
    let tail ← scoresL items query rest
    .ok ((id, 1 - get_norm_leven_dist query txt) :: tail)

/-- Stable descending insertion by score: a later element goes after every
earlier element with an equal or higher score. -/
def insertDesc (x : String × Rat) : List (String × Rat) → List (String × Rat)
  | [] => [x]
  | y :: ys => if x.2 ≤ y.2 then y :: insertDesc x ys else x :: y :: ys

/-- Models list.sort(key=score, reverse=True): stable descending sort. -/
def sortDesc (l : List (String × Rat)) : List (String × Rat) :=
  l.foldl (fun acc x => insertDesc x acc) []

/-- Models DB.search on an indexed state: tokenize the query with the
stored pattern, match every query token, consume and score per record,
apply the selected scoring, and sort descending; unknown scorings raise
after scoring, as in the source. -/
def search (items : List Rec) (st : Indexed) (query : List Char) (rule : MRule)
    (filt : Rec → Bool) (scoring : String) : Except String (List (String × Rat)) :=
  let qtoks := tokensOf st.parameters.min_len query
  let groups := matchedGroups items st rule filt qtoks
  match scoreHits items st.parameters (scoring = "w") groups with
  | .error e => .error e
  | .ok hits =>
    if scoring = "w" ∨ scoring = "w+l" then
      (scoresW items st query qtoks.length (scoring = "w+l") hits).map sortDesc
    else if scoring = "l" then
      (scoresL items query hits).map sortDesc
    else .error "ValueError: unknown scoring method"

/-- Models DB.search including the is_indexed() guard: a database value is
a record list plus the optional index state attached by make_index or
load_index. -/
def dbSearch (vs : List Rec) (stOpt : Option Indexed) (query : List Char)
    (rule : MRule) (filt : Rec → Bool) (scoring : String) :
    Except String (List (String × Rat)) :=
  match stOpt with
  | none => .error "ValueError: Database must be indexed prior to search"
  | some st => search (dbItems vs) st query rule filt scoring

/-- The JSON document written by DB.dump_index: the three top-level
sections.  The keys tuple becomes a JSON array and the scores native
floats; both are modelled by the identity on the already-list-and-rational
model.  The masks parameter has no representation: a Mask object is not
JSON-serializable. -/
structure DumpData where
  index : List (Token × List (String × Rat))
  method : Nat
  min_len : Nat
  keys : List String
  max_scores : List (String × Rat)
deriving DecidableEq

/-- Models DB.dump_index on an indexed state: json.dump raises TypeError on
the non-serializable Mask object stored under parameters when the index was
built with masks. -/
def dump_index (st : Indexed) : Except String DumpData :=
  if st.parameters.masks.isSome then
    .error "TypeError: Object of type Mask is not JSON serializable"
  else
    .ok { index := st.index, method := st.parameters.method,
          min_len := st.parameters.min_len, keys := st.parameters.keys,
          max_scores := st.max_scores }

/-- Models DB.load_index: every stored identifier is resolved through
self.get (KeyError when the collection lacks it) and the three sections are
reattached; a loaded parameters dict holds no masks (null loads as None). -/
def load_index (items : List Rec) (dd : DumpData) : Except String Indexed :=
  if dd.index.all (fun e => e.2.all (fun p => (dbGet items p.1).isSome)) then
    .ok { index := dd.index,
          parameters := { method := dd.method, min_len := dd.min_len,
                          keys := dd.keys, masks := none },
          max_scores := dd.max_scores }
  else .error "KeyError: unknown identifier"

/-- Models one defaultdict(list) lookup on the index attached by
make_index: self._index[value] inserts an empty entry when the token is
missing (the except KeyError branch of get_token_matches is dead code on
such an index).  Returns the index after the lookup. -/
def defaultdictLookup (idx : List (Token × List (String × Rat))) (q : Token) :
    List (Token × List (String × Rat)) :=
  match alookup q idx with
  | some _ => idx
  | none => idx ++ [(q, [])]

/-- The state of the token index after one DB.search call on a freshly
built (defaultdict) index: the fuzzy branch only iterates the existing
entries, while the exact branch looks every query token up, inserting
missing ones. -/
def indexAfterSearch (st : Indexed) (query : List Char) (rule : MRule) :
    List (Token × List (String × Rat)) :=
  match rule with
  | some _ => st.index
  | none => (tokensOf st.parameters.min_len query).foldl defaultdictLookup st.index

/-- The acceptance condition of get_token_matches for a query token against
an index token, covering both branches: exact equality when mismatch_rule is
None, the fuzzy pattern otherwise. -/
def ruleAccepts (rule : MRule) (q t : Token) : Bool :=
  match rule with
  | none => q = t
  | some f => acceptsWith f q t

/-- The contribution of one matched-tokens group to the hit_scoring dict,
given that identifier and item tokens resolve (scoreHits raises otherwise). -/
def hitOf (items : List Rec) (P : Params) (useId : Bool) (g : String × List Tup) :
    Option (String × Rat × Nat) :=
  (dbGet items g.1).bind (fun x =>
    (get_item_tokens P x).bind (fun subj =>
      if (consume useId g.2 subj).2.1 = 0 then none
      else some (g.1, (consume useId g.2 subj).1, (consume useId g.2 subj).2.1)))

/-- The sign structure shared by the count matrix of method 1 and the
TF-IDF matrix of method 2: entries are nonnegative, and a nonzero entry
only occurs for a token that occurs in the record's own token list. -/
def ScoreOK (P : Params) (score : Rec → Token → Rat) : Prop :=
  (∀ x t, 0 ≤ score x t) ∧
  (∀ x t, score x t ≠ 0 → t ∈ (get_item_tokens P x).getD [])

/-! ### Concrete instances used by the concrete evaluations below -/

/-- A one-field record whose text holds the token fuji twice. -/
def rFuji : Rec := { ID := "A", fields := [("text", some "fuji fuji".data)] }

/-- A second record with the same text as rFuji but another identifier. -/
def rFujiB : Rec := { ID := "B", fields := [("text", some "fuji fuji".data)] }

/-- A record indexed on its location whose text attribute is a None value. -/
def rLoc : Rec :=
  { ID := "L", fields := [("location", some "kyoto".data), ("text", none)] }

/-- A record whose text attribute is a None value. -/
def rNone : Rec := { ID := "N", fields := [("text", none)] }

/-- Count-method parameters over the text attribute, no masks. -/
def pOne : Params := { method := 1, min_len := 1, keys := ["text"], masks := none }

/-- Count-method parameters over the location attribute, no masks. -/
def pLoc : Params :=
  { method := 1, min_len := 1, keys := ["location"], masks := none }

/-- Count-method parameters over the text attribute with a Mask object. -/
def pMask : Params :=
  { method := 1, min_len := 1, keys := ["text"], masks := some { rules := [] } }

/-- The index make_index builds from the singleton collection [rFuji]. -/
def stFuji : Indexed :=
  { index := [("fuji".data, [("A", 2)])]
    parameters := pOne
    max_scores := [("A", 4)] }

/-- The index make_index builds from the two-record collection [rFuji, rFujiB]. -/
def stAB : Indexed :=
  { index := [("fuji".data, [("A", 2), ("B", 2)])]
    parameters := pOne
    max_scores := [("A", 4), ("B", 4)] }

/-- The index make_index builds from the singleton collection [rLoc]. -/
def stLoc : Indexed :=
  { index := [("kyoto".data, [("L", 1)])]
    parameters := pLoc
    max_scores := [("L", 1)] }

/-- The index make_index builds from [rFuji] under the masked parameters. -/
def stMaskFuji : Indexed :=
  { index := [("fuji".data, [("A", 2)])]
    parameters := pMask
    max_scores := [("A", 4)] }

/-! ### Generic list lemmas -/

theorem alookup_eq_some_of_mem [DecidableEq α] {l : List (α × β)}
    (h : (l.map Prod.fst).Nodup) {k : α} {v : β} (hm : (k, v) ∈ l) :
    alookup k l = some v := by
  induction l with
  | nil => cases hm
  | cons p rest ih =>
    simp only [List.map_cons, List.nodup_cons] at h
    rcases List.mem_cons.mp hm with h1 | h1
    · rw [← h1]
      simp [alookup]
    · have hk : p.1 ≠ k := by
        intro hkk
        exact h.1 (hkk ▸ List.mem_map.mpr ⟨(k, v), h1, rfl⟩)
      simpa [alookup, hk] using ih h.2 h1

theorem mem_of_alookup_eq_some [DecidableEq α] {l : List (α × β)}
    {k : α} {v : β} (h : alookup k l = some v) : (k, v) ∈ l := by
  induction l with
  | nil => simp [alookup] at h
  | cons p rest ih =>
    by_cases hk : p.1 = k
    · simp only [alookup, hk, if_pos] at h
      cases h
      simp only [List.mem_cons]
      left
      rw [← hk]
    · simp only [alookup, hk, if_neg, not_false_eq_true, if_false] at h
      exact List.mem_cons_of_mem _ (ih h)

theorem alookup_isSome_iff [DecidableEq α] {l : List (α × β)} {k : α} :
    (alookup k l).isSome = true ↔ k ∈ l.map Prod.fst := by
  induction l with
  | nil => simp [alookup]
  | cons p rest ih =>
    by_cases hk : p.1 = k
    · simp [alookup, hk]
    · simp [alookup, hk, ih, Ne.symm hk]

theorem alookup_eq_none_iff [DecidableEq α] {l : List (α × β)} {k : α} :
    alookup k l = none ↔ k ∉ l.map Prod.fst := by
  constructor
  · intro h hk
    have h2 := alookup_isSome_iff.mpr hk
    rw [h] at h2
    cases h2
  · intro hk
    cases hal : alookup k l with
    | none => rfl
    | some v => exact absurd (alookup_isSome_iff.mp (by rw [hal]; rfl)) hk

theorem filter_fst_length_le_one [DecidableEq α] {l : List (α × β)}
    (h : (l.map Prod.fst).Nodup) (k : α) :
    (l.filter (fun p => p.1 = k)).length ≤ 1 := by
  induction l with
  | nil => simp
  | cons p rest ih =>
    simp only [List.map_cons, List.nodup_cons] at h
    by_cases hk : p.1 = k
    · have hnil : rest.filter (fun p => p.1 = k) = [] := by
        apply List.filter_eq_nil_iff.mpr
        intro q hq hq1
        have : q.1 = k := by simpa using hq1
        exact h.1 (hk ▸ this ▸ List.mem_map.mpr ⟨q, hq, rfl⟩)
      simp [List.filter_cons, hk, hnil]
    · simpa [List.filter_cons, hk] using ih h.2

theorem insLE_perm (le : α → α → Bool) (x : α) (l : List α) :
    (insLE le x l).Perm (x :: l) := by
  induction l with
  | nil => simp [insLE]
  | cons y ys ih =>
    by_cases h : le x y
    · simp [insLE, h]
    · simp only [insLE, h, Bool.false_eq_true, if_false]
      exact (ih.cons y).trans (List.Perm.swap x y ys)

theorem isort_perm (le : α → α → Bool) (l : List α) :
    (isort le l).Perm l := by
  induction l with
  | nil => simp [isort]
  | cons y ys ih =>
    exact (insLE_perm le y (isort le ys)).trans (ih.cons y)

theorem mem_isort {le : α → α → Bool} {l : List α} {a : α} :
    a ∈ isort le l ↔ a ∈ l :=
  (isort_perm le l).mem_iff

theorem isort_nodup {le : α → α → Bool} {l : List α} (h : l.Nodup) :
    (isort le l).Nodup := ((isort_perm le l).nodup_iff).mpr h

theorem dedupFirst_nodup [DecidableEq α] (l : List α) :
    (dedupFirst l).Nodup := by
  induction l with
  | nil => simp [dedupFirst]
  | cons x xs ih =>
    simp only [dedupFirst, List.nodup_cons]
    constructor
    · intro hx
      exact (by simpa using List.of_mem_filter hx : ¬x = x) rfl
    · exact List.Nodup.filter _ ih

theorem mem_dedupFirst [DecidableEq α] {l : List α} {a : α} :
    a ∈ dedupFirst l ↔ a ∈ l := by
  induction l with
  | nil => simp [dedupFirst]
  | cons x xs ih =>
    simp only [dedupFirst, List.mem_cons]
    constructor
    · rintro (rfl | h)
      · exact Or.inl rfl
      · exact Or.inr (ih.mp (List.mem_of_mem_filter h))
    · rintro (rfl | h)
      · exact Or.inl rfl
      · by_cases hax : a = x
        · exact Or.inl hax
        · exact Or.inr (List.mem_filter.mpr ⟨ih.mpr h, by simpa using hax⟩)

theorem mem_insertDesc {x a : String × Rat} {l : List (String × Rat)} :
    a ∈ insertDesc x l ↔ a = x ∨ a ∈ l := by
  induction l with
  | nil => simp [insertDesc]
  | cons y ys ih =>
    by_cases h : x.2 ≤ y.2
    · simp only [insertDesc, h, if_pos, List.mem_cons, ih]
      tauto
    · simp only [insertDesc, h, if_neg, not_false_eq_true, if_false, List.mem_cons]

theorem mem_sortDesc {a : String × Rat} {l : List (String × Rat)} :
    a ∈ sortDesc l ↔ a ∈ l := by
  suffices h : ∀ acc, (a ∈ l.foldl (fun acc x => insertDesc x acc) acc ↔ a ∈ acc ∨ a ∈ l) by
    simpa [sortDesc] using h []
  induction l with
  | nil => simp
  | cons y ys ih =>
    intro acc
    simp only [List.foldl_cons, ih, mem_insertDesc, List.mem_cons]
    tauto

theorem insertDesc_sorted {x : String × Rat} {l : List (String × Rat)}
    (h : l.Pairwise (fun a b => b.2 ≤ a.2)) :
    (insertDesc x l).Pairwise (fun a b => b.2 ≤ a.2) := by
  induction l with
  | nil => simp [insertDesc]
  | cons y ys ih =>
    rcases List.pairwise_cons.mp h with ⟨hy, hys⟩
    by_cases hx : x.2 ≤ y.2
    · simp only [insertDesc, hx, if_pos]
      refine List.Pairwise.cons ?_ (ih hys)
      intro b hb
      rcases mem_insertDesc.mp hb with rfl | hb
      · exact hx
      · exact hy b hb
    · simp only [insertDesc, hx, if_neg, not_false_eq_true, if_false]
      have hyx : y.2 ≤ x.2 := le_of_not_le hx
      refine List.Pairwise.cons ?_ h
      intro b hb
      rcases List.mem_cons.mp hb with rfl | hb
      · exact hyx
      · exact le_trans (hy b hb) hyx

theorem sortDesc_sorted (l : List (String × Rat)) :
    (sortDesc l).Pairwise (fun a b => b.2 ≤ a.2) := by
  suffices h : ∀ acc, acc.Pairwise (fun a b => b.2 ≤ a.2) →
      (l.foldl (fun acc x => insertDesc x acc) acc).Pairwise (fun a b => b.2 ≤ a.2) by
    exact h [] (by simp)
  induction l with
  | nil => intro acc hacc; simpa using hacc
  | cons y ys ih =>
    intro acc hacc
    exact ih _ (insertDesc_sorted hacc)

theorem sortDesc_head_ge {l : List (String × Rat)} {y : String × Rat}
    {ys : List (String × Rat)} (h : sortDesc l = y :: ys) :
    ∀ a ∈ l, a.2 ≤ y.2 := by
  intro a ha
  have hmem : a ∈ sortDesc l := mem_sortDesc.mpr ha
  rw [h] at hmem
  rcases List.mem_cons.mp hmem with rfl | hmem
  · exact le_refl _
  · have hs := sortDesc_sorted l
    rw [h] at hs
    exact (List.pairwise_cons.mp hs).1 a hmem

/-! ### Tokenizer lemmas -/

theorem wordRunsAux_append_nonword {c : Char} (hc : isWordChar c = false) :
    ∀ (s cur t : List Char),
    wordRunsAux cur (s ++ c :: t) = wordRunsAux cur s ++ wordRuns t := by
  intro s
  induction s with
  | nil =>
    intro cur t
    by_cases hcur : cur.isEmpty
    · simp [wordRunsAux, hc, hcur, wordRuns]
    · simp [wordRunsAux, hc, hcur, wordRuns]
  | cons d s2 ih =>
    intro cur t
    by_cases hd : isWordChar d
    · simp [wordRunsAux, hd, ih]
    · by_cases hcur : cur.isEmpty
      · simp [wordRunsAux, hd, hcur, ih]
      · simp [wordRunsAux, hd, hcur, ih]

theorem wordRuns_append_sep {c : Char} (hc : isWordChar c = false) (a b : List Char) :
    wordRuns (a ++ c :: b) = wordRuns a ++ wordRuns b :=
  wordRunsAux_append_nonword hc a [] b

theorem strip_accents_append (a b : List Char) :
    strip_accents (a ++ b) = strip_accents a ++ strip_accents b := by
  simp [strip_accents]

theorem lowerChars_append (a b : List Char) :
    lowerChars (a ++ b) = lowerChars a ++ lowerChars b := by
  simp [lowerChars]

theorem tokensOf_append_newline (n : Nat) (a b : List Char) :
    tokensOf n (a ++ '\n' :: b) = tokensOf n a ++ tokensOf n b := by
  have h1 : lowerChars (a ++ '\n' :: b) = lowerChars a ++ '\n' :: lowerChars b := by
    simp [lowerChars]
  have hc1 : stripAccentChar '\n' = '\n' := by decide
  have hc2 : isCombiningMark '\n' = false := by decide
  have h2 : strip_accents (lowerChars a ++ '\n' :: lowerChars b) =
      strip_accents (lowerChars a) ++ '\n' :: strip_accents (lowerChars b) := by
    rw [strip_accents_append]
    simp [strip_accents, hc1, hc2]
  have h3 : isWordChar '\n' = false := by decide
  simp only [tokensOf, regexpTokenize, h1, h2, wordRuns_append_sep h3, List.filter_append]

theorem tokensOf_joinNL (n : Nat) (vs : List (List Char)) :
    tokensOf n (joinNL vs) = (vs.map (tokensOf n)).flatten := by
  induction vs with
  | nil => simp [joinNL, tokensOf, regexpTokenize, strip_accents, lowerChars, wordRuns, wordRunsAux]
  | cons v ws ih =>
    cases ws with
    | nil => simp [joinNL]
    | cons w ws2 =>
      have : joinNL (v :: w :: ws2) = v ++ '\n' :: joinNL (w :: ws2) := rfl
      rw [this, tokensOf_append_newline, ih]
      simp

theorem corpusToks_eq_item_tokens (P : Params) (r : Rec) :
    corpusToks P r = get_item_tokens P r := by
  unfold corpusToks get_corpus get_item_tokens
  cases h : recFieldTexts P r with
  | none => rfl
  | some vs => simp [tokensOf_joinNL]

/-! ### Levenshtein lemmas -/

theorem levF_fuel : ∀ (f g : Nat) (a b : List Char), a.length + b.length ≤ f →
    a.length + b.length ≤ g → levF f a b = levF g a b := by
  intro f
  induction f with
  | zero =>
    intro g a b hf hg
    have ha : a = [] := List.length_eq_zero.mp (by omega)
    have hb : b = [] := List.length_eq_zero.mp (by omega)
    subst ha; subst hb
    cases g <;> simp [levF]
  | succ f ih =>
    intro g a b hf hg
    cases a with
    | nil =>
      cases g with
      | zero =>
        have hb : b = [] := List.length_eq_zero.mp (by simpa using hg)
        subst hb; simp [levF]
      | succ g => simp [levF]
    | cons x xs =>
      cases b with
      | nil =>
        cases g with
        | zero =>
          have : False := by simp at hg
          exact this.elim
        | succ g => simp [levF]
      | cons y ys =>
        cases g with
        | zero =>
          have : False := by simp at hg
          exact this.elim
        | succ g =>
          simp only [List.length_cons] at hf hg
          simp only [levF]
          have e1 : levF f xs ys = levF g xs ys := ih g xs ys (by omega) (by omega)
          have e2 : levF f (x :: xs) ys = levF g (x :: xs) ys :=
            ih g (x :: xs) ys (by simp; omega) (by simp; omega)
          have e3 : levF f xs (y :: ys) = levF g xs (y :: ys) :=
            ih g xs (y :: ys) (by simp; omega) (by simp; omega)
          rw [e1, e2, e3]

theorem leven_nil_left (b : List Char) : leven [] b = b.length := by
  cases b <;> simp [leven, levF]

theorem leven_nil_right (a : List Char) : leven a [] = a.length := by
  cases a <;> simp [leven, levF]

theorem leven_cons (x y : Char) (xs ys : List Char) :
    leven (x :: xs) (y :: ys) =
      if x = y then leven xs ys
      else 1 + min (leven xs ys) (min (leven (x :: xs) ys) (leven xs (y :: ys))) := by
  have h : leven (x :: xs) (y :: ys) =
      levF (xs.length + ys.length + 2) (x :: xs) (y :: ys) := by
    show levF ((x :: xs).length + (y :: ys).length) (x :: xs) (y :: ys) = _
    apply levF_fuel
    · exact le_rfl
    · simp only [List.length_cons]
      omega
  rw [h]
  simp only [levF]
  have e1 : levF (xs.length + ys.length + 1) xs ys = leven xs ys :=
    levF_fuel _ _ _ _ (by omega) le_rfl
  have e2 : levF (xs.length + ys.length + 1) (x :: xs) ys = leven (x :: xs) ys :=
    levF_fuel _ _ _ _ (by simp only [List.length_cons]; omega) le_rfl
  have e3 : levF (xs.length + ys.length + 1) xs (y :: ys) = leven xs (y :: ys) :=
    levF_fuel _ _ _ _ (by simp only [List.length_cons]; omega) le_rfl
  rw [e1, e2, e3]

theorem leven_eq_zero_iff : ∀ (a b : List Char), leven a b = 0 ↔ a = b := by
  intro a
  induction a with
  | nil =>
    intro b
    rw [leven_nil_left]
    cases b <;> simp
  | cons x xs ih =>
    intro b
    cases b with
    | nil => rw [leven_nil_right]; simp
    | cons y ys =>
      rw [leven_cons]
      by_cases hxy : x = y
      · subst hxy
        simpa using ih ys
      · simp [hxy]

theorem leven_le_max : ∀ (a b : List Char), leven a b ≤ max a.length b.length := by
  intro a
  induction a with
  | nil =>
    intro b
    rw [leven_nil_left]
    exact le_max_right _ _
  | cons x xs ih =>
    intro b
    induction b with
    | nil =>
      rw [leven_nil_right]
      exact le_max_left _ _
    | cons y ys ihb =>
      rw [leven_cons]
      by_cases hxy : x = y
      · have := ih ys
        simp only [hxy, if_pos, List.length_cons]
        omega
      · have h1 := ih ys
        simp only [hxy, if_neg, not_false_eq_true, if_false, List.length_cons]
        have h2 : min (leven (x :: xs) ys) (leven xs (y :: ys)) ≤ leven (x :: xs) ys :=
          min_le_left _ _
        have h3 : min (leven xs ys) (min (leven (x :: xs) ys) (leven xs (y :: ys))) ≤
            leven xs ys := min_le_left _ _
        omega

theorem identityOf_nonneg (t q : Token) : 0 ≤ identityOf t q := by
  unfold identityOf
  by_cases h : max t.length q.length < leven t q
  · simp [h]
  · simp only [h, if_neg, not_false_eq_true, if_false]
    have hd : leven t q ≤ max t.length q.length := by omega
    rcases Nat.eq_zero_or_pos (max t.length q.length) with h0 | h0
    · have : leven t q = 0 := by omega
      simp [this, h0]
    · have hle : ((leven t q : Rat)) / ((max t.length q.length : Nat) : Rat) ≤ 1 := by
        rw [div_le_one (by exact_mod_cast h0)]
        exact_mod_cast hd
      linarith

theorem identityOf_le_one (t q : Token) : identityOf t q ≤ 1 := by
  unfold identityOf
  by_cases h : max t.length q.length < leven t q
  · simp [h]
  · simp only [h, if_neg, not_false_eq_true, if_false]
    have hnn : (0 : Rat) ≤ ((leven t q : Rat)) / ((max t.length q.length : Nat) : Rat) :=
      div_nonneg (by positivity) (by positivity)
    linarith

theorem norm_leven_nonneg (a b : List Char) : 0 ≤ get_norm_leven_dist a b := by
  unfold get_norm_leven_dist
  exact div_nonneg (by positivity) (by positivity)

theorem norm_leven_le_one (a b : List Char) : get_norm_leven_dist a b ≤ 1 := by
  unfold get_norm_leven_dist
  set a2 := simplify_str a
  set b2 := simplify_str b
  rcases Nat.eq_zero_or_pos (max a2.length b2.length) with h0 | h0
  · have ha : a2 = [] := List.length_eq_zero.mp (by omega)
    have hb : b2 = [] := List.length_eq_zero.mp (by omega)
    rw [ha, hb]
    simp [leven_nil_left]
  · rw [div_le_one (by exact_mod_cast h0)]
    exact_mod_cast leven_le_max a2 b2

/-! ### Base-2 logarithm lemmas -/

theorem intLog2F_spec : ∀ (f n : Nat), 1 ≤ n → n ≤ f →
    2 ^ intLog2F f n ≤ n ∧ n < 2 ^ (intLog2F f n + 1) := by
  intro f
  induction f with
  | zero => intro n h1 h2; omega
  | succ f ih =>
    intro n h1 h2
    by_cases hn : n ≤ 1
    · have hn1 : n = 1 := by omega
      subst hn1
      simp [intLog2F]
    · have h1q : 1 ≤ n / 2 := by omega
      have h2q : n / 2 ≤ f := by omega
      obtain ⟨ha, hb⟩ := ih (n / 2) h1q h2q
      simp only [intLog2F, hn, if_neg, not_false_eq_true, if_false]
      rw [pow_succ, pow_succ] at *
      set K := 2 ^ intLog2F f (n / 2) with hK
      constructor
      · omega
      · rw [pow_succ]
        omega

theorem intLog2_spec (n : Nat) (h : 1 ≤ n) :
    2 ^ intLog2 n ≤ n ∧ n < 2 ^ (intLog2 n + 1) :=
  intLog2F_spec n n h le_rfl

/-! ### Consumption lemmas -/

theorem removeFirst_sublist (t : Token) (l : List Token) :
    (removeFirst t l).Sublist l := by
  induction l with
  | nil => simp [removeFirst]
  | cons u us ih =>
    by_cases h : u = t
    · subst h
      simp only [removeFirst, if_pos]
      exact List.sublist_cons_self u us
    · simp only [removeFirst, h, if_neg, not_false_eq_true, if_false]
      exact ih.cons₂ u

theorem length_removeFirst_of_mem {t : Token} {l : List Token} (h : t ∈ l) :
    (removeFirst t l).length = l.length - 1 := by
  induction l with
  | nil => cases h
  | cons u us ih =>
    by_cases hu : u = t
    · simp [removeFirst, hu]
    · have hm : t ∈ us := by
        rcases List.mem_cons.mp h with h1 | h1
        · exact absurd h1.symm hu
        · exact h1
      have hpos : 1 ≤ us.length := List.length_pos.mpr (List.ne_nil_of_mem hm)
      simp only [removeFirst, hu, if_neg, not_false_eq_true, if_false,
        List.length_cons, ih hm]
      omega

theorem perm_cons_removeFirst {t : Token} {l : List Token} (h : t ∈ l) :
    l.Perm (t :: removeFirst t l) := by
  induction l with
  | nil => cases h
  | cons u us ih =>
    by_cases hu : u = t
    · subst hu
      simp [removeFirst]
    · have hm : t ∈ us := by
        rcases List.mem_cons.mp h with h1 | h1
        · exact absurd h1.symm hu
        · exact h1
      simp only [removeFirst, hu, if_neg, not_false_eq_true, if_false]
      exact ((ih hm).cons u).trans (List.Perm.swap t u (removeFirst t us))

theorem consume_nil_subj (useId : Bool) (ms : List Tup) :
    consume useId ms [] = (0, 0, []) := by
  induction ms with
  | nil => rfl
  | cons tp ms ih =>
    rcases tp with ⟨t, idn, sc⟩
    simp [consume, ih]

theorem consume_skip (useId : Bool) (t : Token) (idn sc : Rat) (ms : List Tup)
    (subj : List Token) (h : t ∉ subj) :
    consume useId ((t, idn, sc) :: ms) subj = consume useId ms subj := by
  simp [consume, h]

theorem consume_count_le (useId : Bool) (ms : List Tup) (subj : List Token) (u : Token) :
    (consume useId ms subj).2.2.count u ≤ subj.count u := by
  induction ms generalizing subj with
  | nil => simp [consume]
  | cons tp ms ih =>
    rcases tp with ⟨t, idn, sc⟩
    by_cases h : t ∈ subj
    · simp only [consume, h, if_pos]
      exact le_trans (ih (removeFirst t subj)) ((removeFirst_sublist t subj).count_le u)
    · simpa [consume, h] using ih subj

theorem consume_n_add_leftover (useId : Bool) (ms : List Tup) (subj : List Token) :
    (consume useId ms subj).2.1 + (consume useId ms subj).2.2.length = subj.length := by
  induction ms generalizing subj with
  | nil => simp [consume]
  | cons tp ms ih =>
    rcases tp with ⟨t, idn, sc⟩
    by_cases h : t ∈ subj
    · simp only [consume, h, if_pos]
      have h1 := ih (removeFirst t subj)
      have h2 : (removeFirst t subj).length = subj.length - 1 := length_removeFirst_of_mem h
      have h3 : 1 ≤ subj.length := List.length_pos.mpr (List.ne_nil_of_mem h)
      omega
    · simpa [consume, h] using ih subj

theorem consume_n_le (useId : Bool) (ms : List Tup) (subj : List Token) :
    (consume useId ms subj).2.1 ≤ ms.length := by
  induction ms generalizing subj with
  | nil => simp [consume]
  | cons tp ms ih =>
    rcases tp with ⟨t, idn, sc⟩
    by_cases h : t ∈ subj
    · simp only [consume, h, if_pos, List.length_cons]
      exact Nat.add_le_add_right (ih (removeFirst t subj)) 1
    · simp only [consume, h, if_neg, not_false_eq_true, if_false, List.length_cons]
      exact le_trans (ih subj) (Nat.le_succ _)

theorem consume_raw_nonneg (useId : Bool) (ms : List Tup) (subj : List Token)
    (h : ∀ tp ∈ ms, 0 ≤ tp.2.2 ∧ 0 ≤ tp.2.1) : 0 ≤ (consume useId ms subj).1 := by
  induction ms generalizing subj with
  | nil => simp [consume]
  | cons tp ms ih =>
    rcases tp with ⟨t, idn, sc⟩
    obtain ⟨hsc, hidn⟩ := h _ (List.mem_cons_self _ _)
    have hrest : ∀ tp ∈ ms, 0 ≤ tp.2.2 ∧ 0 ≤ tp.2.1 :=
      fun tp htp => h tp (List.mem_cons_of_mem _ htp)
    by_cases hmem : t ∈ subj
    · simp only [consume, hmem, if_pos]
      have hterm : 0 ≤ sc * (if useId then idn else 1) := by
        cases useId with
        | false => simpa using hsc
        | true => simpa using mul_nonneg hsc hidn
      have := ih (removeFirst t subj) hrest
      linarith
    · simpa [consume, hmem] using ih subj hrest

theorem consume_raw_le (useId : Bool) (ms : List Tup) (subj : List Token)
    (w : Token → Rat) (hw : ∀ u, 0 ≤ w u)
    (h : ∀ tp ∈ ms, 0 ≤ tp.2.2 ∧ 0 ≤ tp.2.1 ∧ tp.2.1 ≤ 1 ∧ tp.2.2 ≤ w tp.1) :
    (consume useId ms subj).1 ≤ (subj.map w).sum := by
  induction ms generalizing subj with
  | nil =>
    simp only [consume]
    exact List.sum_nonneg (by
      intro a ha
      obtain ⟨u, _, rfl⟩ := List.mem_map.mp ha
      exact hw u)
  | cons tp ms ih =>
    rcases tp with ⟨t, idn, sc⟩
    obtain ⟨h1, h2, h3, h4⟩ := h _ (List.mem_cons_self _ _)
    have hrest := fun tp htp => h tp (List.mem_cons_of_mem _ htp)
    by_cases hmem : t ∈ subj
    · simp only [consume, hmem, if_pos]
      have hperm : subj.Perm (t :: removeFirst t subj) := perm_cons_removeFirst hmem
      have hsum : (subj.map w).sum = w t + ((removeFirst t subj).map w).sum := by
        rw [(hperm.map w).sum_eq]
        simp
      have hrec := ih (removeFirst t subj) hrest
      have hterm : sc * (if useId then idn else 1) ≤ w t := by
        cases useId with
        | false => simpa using h4
        | true =>
          simp only [if_pos]
          calc sc * idn ≤ sc * 1 := mul_le_mul_of_nonneg_left h3 h1
            _ = sc := mul_one sc
            _ ≤ w t := h4
      rw [hsum]
      linarith
    · simpa [consume, hmem] using ih subj hrest

theorem consume_full (useId : Bool) (w : Token → Rat) :
    ∀ (ts subj : List Token), subj.Perm ts →
    (consume useId (ts.map (fun t => (t, (1 : Rat), w t))) subj).1 = (ts.map w).sum ∧
    (consume useId (ts.map (fun t => (t, (1 : Rat), w t))) subj).2.1 = ts.length := by
  intro ts
  induction ts with
  | nil =>
    intro subj hperm
    simp [consume]
  | cons t ts ih =>
    intro subj hperm
    have hmem : t ∈ subj := hperm.mem_iff.mpr (List.mem_cons_self _ _)
    have hperm2 : (removeFirst t subj).Perm ts := by
      have h1 : (t :: removeFirst t subj).Perm (t :: ts) :=
        (perm_cons_removeFirst hmem).symm.trans hperm
      exact h1.cons_inv
    obtain ⟨ihr, ihn⟩ := ih (removeFirst t subj) hperm2
    simp only [List.map_cons, consume, hmem, if_pos, ihr, ihn, List.length_cons,
      List.sum_cons]
    constructor
    · cases useId with
      | false => simp
      | true => simp
    · trivial

theorem consume_head_mem_pos (useId : Bool) (t : Token) (idn sc : Rat)
    (ms : List Tup) (subj : List Token) (h : t ∈ subj) :
    1 ≤ (consume useId ((t, idn, sc) :: ms) subj).2.1 := by
  simp [consume, h]

/-! ### Database dict lemmas -/

theorem upsert_IDs_nodup {acc : List Rec} (h : (acc.map Rec.ID).Nodup) (x : Rec) :
    ((upsert acc x).map Rec.ID).Nodup := by
  unfold upsert
  by_cases hx : acc.any (fun y => y.ID = x.ID)
  · simp only [hx, if_pos]
    have heq : (acc.map (fun y => if y.ID = x.ID then x else y)).map Rec.ID =
        acc.map Rec.ID := by
      rw [List.map_map]
      apply List.map_congr_left
      intro y hy
      by_cases h2 : y.ID = x.ID
      · simp [Function.comp, h2]
      · simp [Function.comp, h2]
    rw [heq]
    exact h
  · simp only [hx, Bool.false_eq_true, if_false, List.map_append, List.map_cons,
      List.map_nil]
    have hnot : x.ID ∉ acc.map Rec.ID := by
      intro hmem
      obtain ⟨y, hy, hyid⟩ := List.mem_map.mp hmem
      exact hx (List.any_eq_true.mpr ⟨y, hy, by simp [hyid]⟩)
    simp [List.nodup_append, h, hnot]

theorem dbItems_IDs_nodup (vs : List Rec) : ((dbItems vs).map Rec.ID).Nodup := by
  suffices h : ∀ acc, (acc.map Rec.ID).Nodup →
      ((vs.foldl upsert acc).map Rec.ID).Nodup from h [] (by simp)
  induction vs with
  | nil => intro acc hacc; simpa using hacc
  | cons v vs ih => intro acc hacc; exact ih _ (upsert_IDs_nodup hacc v)

theorem dbGet_eq_some {items : List Rec} {id : String} {x : Rec}
    (h : dbGet items id = some x) : x ∈ items ∧ x.ID = id := by
  unfold dbGet at h
  refine ⟨List.mem_of_find?_eq_some h, ?_⟩
  have := List.find?_some h
  simpa using this

theorem dbGet_of_mem {items : List Rec} (h : (items.map Rec.ID).Nodup) {x : Rec}
    (hx : x ∈ items) : dbGet items x.ID = some x := by
  induction items with
  | nil => cases hx
  | cons y ys ih =>
    simp only [List.map_cons, List.nodup_cons] at h
    rcases List.mem_cons.mp hx with rfl | hx
    · simp [dbGet]
    · have hne : y.ID ≠ x.ID := by
        intro he
        exact h.1 (he ▸ List.mem_map.mpr ⟨x, hx, rfl⟩)
      have : dbGet ys x.ID = some x := ih h.2 hx
      simpa [dbGet, List.find?_cons, hne] using this

theorem dbGet_unique {items : List Rec} (h : (items.map Rec.ID).Nodup) {x y : Rec}
    (hx : x ∈ items) (hy : dbGet items x.ID = some y) : y = x := by
  rw [dbGet_of_mem h hx] at hy
  exact (Option.some_inj.mp hy).symm

/-! ### Grouping lemmas -/

theorem alookup_insertTup (acc : List (String × List Tup)) (id : String) (tp : Tup)
    (k : String) :
    alookup k (insertTup acc id tp) =
      if k = id then some ((alookup id acc).getD [] ++ [tp]) else alookup k acc := by
  induction acc with
  | nil =>
    by_cases hk : k = id
    · subst hk
      simp [insertTup, alookup]
    · have hk2 : ¬id = k := fun h => hk h.symm
      simp [insertTup, alookup, hk, hk2]
  | cons p rest ih =>
    rcases p with ⟨k2, tps⟩
    by_cases h2 : k2 = id
    · subst h2
      by_cases hk : k2 = k
      · subst hk
        simp [insertTup, alookup]
      · have hk2 : ¬k = k2 := fun h => hk h.symm
        simp [insertTup, alookup, hk, hk2]
    · by_cases hk : k2 = k
      · subst hk
        have hki : ¬k2 = id := h2
        simp [insertTup, alookup, h2, hki]
      · simp [insertTup, alookup, h2, hk, ih]

theorem mem_keys_insertTup {acc : List (String × List Tup)} {id k : String}
    {tp : Tup} :
    k ∈ (insertTup acc id tp).map Prod.fst ↔ k = id ∨ k ∈ acc.map Prod.fst := by
  induction acc with
  | nil => simp [insertTup]
  | cons p rest ih =>
    rcases p with ⟨k2, tps⟩
    by_cases h2 : k2 = id
    · subst h2
      simp only [insertTup, if_pos, List.map_cons, List.mem_cons]
      tauto
    · simp only [insertTup, h2, if_neg, not_false_eq_true, if_false, List.map_cons,
        List.mem_cons, ih]
      tauto

theorem insertTup_keys_nodup {acc : List (String × List Tup)}
    (h : (acc.map Prod.fst).Nodup) (id : String) (tp : Tup) :
    ((insertTup acc id tp).map Prod.fst).Nodup := by
  induction acc with
  | nil => simp [insertTup]
  | cons p rest ih =>
    rcases p with ⟨k2, tps⟩
    simp only [List.map_cons, List.nodup_cons] at h
    by_cases h2 : k2 = id
    · subst h2
      simp only [insertTup, if_pos, List.map_cons]
      exact List.nodup_cons.mpr h
    · simp only [insertTup, h2, if_neg, not_false_eq_true, if_false, List.map_cons]
      refine List.nodup_cons.mpr ⟨?_, ih h.2⟩
      intro hmem
      rcases mem_keys_insertTup.mp hmem with rfl | hmem2
      · exact h2 rfl
      · exact h.1 hmem2

theorem groupByID_append (l : List (String × Tup)) (p : String × Tup) :
    groupByID (l ++ [p]) = insertTup (groupByID l) p.1 p.2 := by
  simp [groupByID, List.foldl_append]

theorem groupByID_keys_nodup (l : List (String × Tup)) :
    ((groupByID l).map Prod.fst).Nodup := by
  induction l using List.reverseRecOn with
  | nil => simp [groupByID]
  | append_singleton l p ih =>
    rw [groupByID_append]
    exact insertTup_keys_nodup ih p.1 p.2

theorem groupByID_alookup (l : List (String × Tup)) (k : String) :
    alookup k (groupByID l) =
      if l.filter (fun p => p.1 = k) = [] then none
      else some ((l.filter (fun p => p.1 = k)).map Prod.snd) := by
  induction l using List.reverseRecOn with
  | nil => simp [groupByID, alookup]
  | append_singleton l p ih =>
    rw [groupByID_append, alookup_insertTup]
    by_cases hk : k = p.1
    · have hp1 : p.1 = k := hk.symm
      have hfk : (l ++ [p]).filter (fun q => q.1 = k) =
          l.filter (fun q => q.1 = k) ++ [p] := by
        simp [List.filter_append, hp1]
      rw [if_pos hk, hfk, hp1, ih]
      by_cases hnil : l.filter (fun q => q.1 = k) = []
      · simp [hnil]
      · simp [hnil]
    · have hp1 : ¬p.1 = k := fun h => hk h.symm
      have hfk : (l ++ [p]).filter (fun q => q.1 = k) =
          l.filter (fun q => q.1 = k) := by
        simp [List.filter_append, hp1]
      rw [if_neg hk, hfk, ih]

theorem groupByID_mem_keys {l : List (String × Tup)} {k : String} :
    k ∈ (groupByID l).map Prod.fst ↔ k ∈ l.map Prod.fst := by
  rw [← alookup_isSome_iff, groupByID_alookup]
  by_cases hf : l.filter (fun p => p.1 = k) = []
  · simp only [hf, if_pos, Option.isSome_none, Bool.false_eq_true, false_iff]
    rw [List.filter_eq_nil_iff] at hf
    intro hmem
    obtain ⟨p, hp, hpk⟩ := List.mem_map.mp hmem
    have hno : ¬p.1 = k := by simpa using hf p hp
    exact hno hpk
  · simp only [hf, if_neg, not_false_eq_true, if_false, Option.isSome_some, true_iff]
    obtain ⟨p, hp⟩ := List.exists_mem_of_ne_nil _ hf
    have hpl := List.mem_of_mem_filter hp
    have hpk : p.1 = k := by simpa using List.of_mem_filter hp
    exact List.mem_map.mpr ⟨p, hpl, hpk⟩

theorem mem_groupByID_eq {l : List (String × Tup)} {k : String} {ms : List Tup}
    (h : (k, ms) ∈ groupByID l) :
    ms = (l.filter (fun p => p.1 = k)).map Prod.snd ∧
      l.filter (fun p => p.1 = k) ≠ [] := by
  have hl : alookup k (groupByID l) = some ms :=
    alookup_eq_some_of_mem (groupByID_keys_nodup l) h
  rw [groupByID_alookup] at hl
  by_cases hf : l.filter (fun p => p.1 = k) = []
  · simp [hf] at hl
  · simp only [hf, if_neg, not_false_eq_true, if_false, Option.some_inj] at hl
    exact ⟨hl.symm, hf⟩

theorem groupByID_mem_of_key {l : List (String × Tup)} {k : String}
    (h : k ∈ l.map Prod.fst) :
    ∃ ms, (k, ms) ∈ groupByID l ∧
      ms = (l.filter (fun p => p.1 = k)).map Prod.snd := by
  have h2 : k ∈ (groupByID l).map Prod.fst := groupByID_mem_keys.mpr h
  obtain ⟨g, hg, hgk⟩ := List.mem_map.mp h2
  rcases g with ⟨k2, ms⟩
  simp only at hgk
  subst hgk
  exact ⟨ms, hg, (mem_groupByID_eq hg).1⟩

/-! ### Index construction lemmas -/

theorem seqOpt_mem {l : List (Option α)} {r : List α} (h : seqOpt l = some r) :
    ∀ o ∈ l, ∃ a ∈ r, o = some a := by
  induction l generalizing r with
  | nil => intro o ho; cases ho
  | cons o2 rest ih =>
    cases o2 with
    | none =>
      have hn : seqOpt (none :: rest) = none := rfl
      rw [hn] at h
      cases h
    | some a =>
      simp only [seqOpt] at h
      cases hrest : seqOpt rest with
      | none => rw [hrest] at h; cases h
      | some cs =>
        rw [hrest] at h
        have hm : (seqOpt rest).map (a :: ·) = some (a :: cs) := by rw [hrest]; rfl
        rw [hrest] at hm
        rw [hm] at h
        injection h with h
        subst h
        intro o ho
        rcases List.mem_cons.mp ho with rfl | ho
        · exact ⟨a, List.mem_cons_self _ _, rfl⟩
        · obtain ⟨b, hb, hob⟩ := ih hrest o ho
          exact ⟨b, List.mem_cons_of_mem _ hb, hob⟩

theorem filterMap_keyed_sublist (items : List Rec) (g : Rec → Option (String × Rat))
    (hg : ∀ x, ∀ p, g x = some p → p.1 = x.ID) :
    ((items.filterMap g).map Prod.fst).Sublist (items.map Rec.ID) := by
  induction items with
  | nil => simp
  | cons x xs ih =>
    cases hx : g x with
    | none =>
      simp only [List.filterMap_cons, hx, List.map_cons]
      exact ih.trans (List.sublist_cons_self x.ID (xs.map Rec.ID))
    | some p =>
      simp only [List.filterMap_cons, hx, List.map_cons, hg x p hx]
      exact ih.cons₂ x.ID

/-- Inversion of a successful make_index: the stored parameters, the shape
of the index and of the maximum scores, and the invariants established by
the build. -/
theorem make_index_inv {vs : List Rec} {P : Params} {score : Rec → Token → Rat}
    {st : Indexed} (h : make_index vs P score = .ok st) :
    st.parameters = P ∧
    (∀ x ∈ dbItems vs, (corpusToks P x).isSome) ∧
    (∀ x ∈ dbItems vs, ∀ u ∈ (get_item_tokens P x).getD [], score x u ≠ 0) ∧
    (∃ vocab : List Token, vocab.Nodup ∧
      st.index = vocab.map (fun t => (t, (dbItems vs).filterMap (fun x =>
        if score x t ≠ 0 then some (x.ID, score x t) else none))) ∧
      (∀ x ∈ dbItems vs, ∀ u ∈ (get_item_tokens P x).getD [], u ∈ vocab)) ∧
    st.max_scores = (dbItems vs).filterMap (fun x =>
      match get_item_tokens P x with
      | some [] => none
      | some ts => some (x.ID, (ts.map (score x)).sum)
      | none => none) := by
  unfold make_index at h
  cases hseq : seqOpt ((dbItems vs).map (corpusToks P)) with
  | none =>
    simp only [hseq] at h
    exact Except.noConfusion h
  | some tokLists =>
    simp only [hseq] at h
    by_cases hvoc : (isort tokLE (dedupFirst tokLists.flatten)).isEmpty
    · rw [if_pos hvoc] at h
      exact Except.noConfusion h
    · rw [if_neg hvoc] at h
      by_cases hall : (dbItems vs).all (fun x =>
          ((get_item_tokens P x).getD []).all (fun u => decide (score x u ≠ 0)))
      · rw [if_pos hall] at h
        injection h with h
        have hsrc : ∀ x ∈ dbItems vs, ∃ ts ∈ tokLists, corpusToks P x = some ts := by
          intro x hx
          exact seqOpt_mem hseq (corpusToks P x) (List.mem_map.mpr ⟨x, hx, rfl⟩)
        have hsome : ∀ x ∈ dbItems vs, (corpusToks P x).isSome := by
          intro x hx
          obtain ⟨ts, -, hts⟩ := hsrc x hx
          rw [hts]
          rfl
        have hwf : ∀ x ∈ dbItems vs, ∀ u ∈ (get_item_tokens P x).getD [],
            score x u ≠ 0 := by
          intro x hx u hu
          have h1 := List.all_eq_true.mp hall x hx
          have h2 := List.all_eq_true.mp h1 u hu
          simpa using h2
        refine ⟨by rw [← h], hsome, hwf, ?_, by rw [← h]⟩
        refine ⟨isort tokLE (dedupFirst tokLists.flatten),
          isort_nodup (dedupFirst_nodup _), by rw [← h], ?_⟩
        intro x hx u hu
        rw [mem_isort, mem_dedupFirst]
        obtain ⟨ts, hts, htseq⟩ := hsrc x hx
        have hct : (get_item_tokens P x).getD [] = ts := by
          rw [← corpusToks_eq_item_tokens, htseq]
          rfl
        exact List.mem_flatten.mpr ⟨ts, hts, hct ▸ hu⟩
      · rw [if_neg hall] at h
        exact Except.noConfusion h

theorem make_index_params {vs : List Rec} {P : Params} {score : Rec → Token → Rat}
    {st : Indexed} (h : make_index vs P score = .ok st) : st.parameters = P :=
  (make_index_inv h).1

theorem make_index_item_toks {vs : List Rec} {P : Params} {score : Rec → Token → Rat}
    {st : Indexed} (h : make_index vs P score = .ok st) {x : Rec}
    (hx : x ∈ dbItems vs) : ∃ ts, get_item_tokens P x = some ts := by
  have := (make_index_inv h).2.1 x hx
  rw [corpusToks_eq_item_tokens] at this
  exact Option.isSome_iff_exists.mp this

theorem make_index_keys_nodup {vs : List Rec} {P : Params}
    {score : Rec → Token → Rat} {st : Indexed}
    (h : make_index vs P score = .ok st) : (st.index.map Prod.fst).Nodup := by
  obtain ⟨-, -, -, ⟨vocab, hnd, hidx, -⟩, -⟩ := make_index_inv h
  rw [hidx, List.map_map]
  simpa [Function.comp_def] using hnd

theorem make_index_entry_weights {vs : List Rec} {P : Params}
    {score : Rec → Token → Rat} {st : Indexed}
    (h : make_index vs P score = .ok st) {t : Token} {hits : List (String × Rat)}
    (hmem : (t, hits) ∈ st.index) {id : String} {w : Rat} (hw : (id, w) ∈ hits) :
    ∃ x ∈ dbItems vs, x.ID = id ∧ w = score x t ∧ score x t ≠ 0 := by
  obtain ⟨-, -, -, ⟨vocab, hnd, hidx, -⟩, -⟩ := make_index_inv h
  rw [hidx] at hmem
  obtain ⟨u, hu, hueq⟩ := List.mem_map.mp hmem
  have ht : u = t := congrArg Prod.fst hueq
  subst ht
  have hhits : hits = (dbItems vs).filterMap (fun x =>
      if score x u ≠ 0 then some (x.ID, score x u) else none) :=
    (congrArg Prod.snd hueq).symm
  rw [hhits] at hw
  obtain ⟨x, hx, hxeq⟩ := List.mem_filterMap.mp hw
  by_cases hs : score x u ≠ 0
  · rw [if_pos hs] at hxeq
    injection hxeq with hxeq
    exact ⟨x, hx, congrArg Prod.fst hxeq, (congrArg Prod.snd hxeq).symm, hs⟩
  · rw [if_neg hs] at hxeq
    cases hxeq

theorem make_index_entry_complete {vs : List Rec} {P : Params}
    {score : Rec → Token → Rat} {st : Indexed}
    (h : make_index vs P score = .ok st) {x : Rec} (hx : x ∈ dbItems vs)
    {u : Token} (hu : u ∈ (get_item_tokens P x).getD []) :
    ∃ hits, (u, hits) ∈ st.index ∧ (x.ID, score x u) ∈ hits := by
  obtain ⟨-, -, hwf, ⟨vocab, hnd, hidx, hcomp⟩, -⟩ := make_index_inv h
  have huv : u ∈ vocab := hcomp x hx u hu
  refine ⟨(dbItems vs).filterMap (fun y =>
    if score y u ≠ 0 then some (y.ID, score y u) else none), ?_, ?_⟩
  · rw [hidx]
    exact List.mem_map.mpr ⟨u, huv, rfl⟩
  · exact List.mem_filterMap.mpr ⟨x, hx, by rw [if_pos (hwf x hx u hu)]⟩

theorem make_index_max_lookup {vs : List Rec} {P : Params}
    {score : Rec → Token → Rat} {st : Indexed}
    (h : make_index vs P score = .ok st) {x : Rec} (hx : x ∈ dbItems vs)
    {ts : List Token} (hts : get_item_tokens P x = some ts) (hne : ts ≠ []) :
    alookup x.ID st.max_scores = some ((ts.map (score x)).sum) := by
  obtain ⟨-, -, -, -, hmax⟩ := make_index_inv h
  have hnd : ((st.max_scores.map Prod.fst)).Nodup := by
    rw [hmax]
    refine List.Sublist.nodup ?_ (dbItems_IDs_nodup vs)
    apply filterMap_keyed_sublist
    intro y p hyp
    cases hys : get_item_tokens P y with
    | none => rw [hys] at hyp; cases hyp
    | some us =>
      cases us with
      | nil => rw [hys] at hyp; cases hyp
      | cons u us2 =>
        rw [hys] at hyp
        injection hyp with hyp
        exact congrArg Prod.fst hyp.symm
  apply alookup_eq_some_of_mem hnd
  rw [hmax]
  refine List.mem_filterMap.mpr ⟨x, hx, ?_⟩
  rw [hts]
  cases ts with
  | nil => exact absurd rfl hne
  | cons t ts2 => rfl

theorem countScore_nonneg (P : Params) (x : Rec) (t : Token) :
    0 ≤ countScore P x t := by
  unfold countScore
  positivity

theorem countScore_supp (P : Params) (x : Rec) (t : Token)
    (h : countScore P x t ≠ 0) : t ∈ (get_item_tokens P x).getD [] := by
  unfold countScore at h
  rw [← corpusToks_eq_item_tokens]
  have hc : ((corpusToks P x).getD []).count t ≠ 0 := by exact_mod_cast h
  exact List.count_pos_iff.mp (Nat.pos_of_ne_zero hc)

/-! ### Match provenance lemmas -/

theorem foldl_best_mem (xs : List Tup) : ∀ (b : Tup),
    xs.foldl (fun b t => if tupGT t b then t else b) b = b ∨
    xs.foldl (fun b t => if tupGT t b then t else b) b ∈ xs := by
  induction xs with
  | nil => intro b; left; rfl
  | cons t ts ih =>
    intro b
    simp only [List.foldl_cons]
    by_cases h : tupGT t b
    · rw [if_pos h]
      rcases ih t with h2 | h2
      · right
        rw [h2]
        exact List.mem_cons_self _ _
      · right; exact List.mem_cons_of_mem _ h2
    · rw [if_neg h]
      rcases ih b with h2 | h2
      · left; exact h2
      · right; exact List.mem_cons_of_mem _ h2

theorem bestTup_mem {l : List Tup} (h : l ≠ []) : bestTup l ∈ l := by
  cases l with
  | nil => exact absurd rfl h
  | cons x xs =>
    have hb : bestTup (x :: xs) = xs.foldl (fun b t => if tupGT t b then t else b) x :=
      rfl
    rw [hb]
    rcases foldl_best_mem xs x with h2 | h2
    · rw [h2]; exact List.mem_cons_self _ _
    · exact List.mem_cons_of_mem _ h2

theorem rawTokenMatches_inv {items : List Rec} {st : Indexed} {rule : MRule}
    {filt : Rec → Bool} {q : Token} {id : String} {tp : Tup}
    (h : (id, tp) ∈ rawTokenMatches items st rule filt q) :
    filtOn items filt id = true ∧
    ∃ hits, (tp.1, hits) ∈ st.index ∧ (id, tp.2.2) ∈ hits ∧
      ruleAccepts rule q tp.1 = true ∧
      (tp.2.1 = 1 ∨ tp.2.1 = identityOf tp.1 q) := by
  cases rule with
  | none =>
    unfold rawTokenMatches at h
    cases hal : alookup q st.index with
    | none => rw [hal] at h; simp at h
    | some hits =>
      rw [hal] at h
      simp only [Option.getD_some] at h
      obtain ⟨p, hp, hpe⟩ := List.mem_filterMap.mp h
      by_cases hft : filtOn items filt p.1
      · rw [if_pos hft] at hpe
        injection hpe with hpe1
        have hid : p.1 = id := congrArg Prod.fst hpe1
        have htp : (q, (1 : Rat), p.2) = tp := congrArg Prod.snd hpe1
        subst htp
        refine ⟨hid ▸ hft, hits, mem_of_alookup_eq_some hal, ?_, ?_, Or.inl rfl⟩
        · exact hid ▸ hp
        · simp [ruleAccepts]
      · rw [if_neg hft] at hpe
        cases hpe
  | some f =>
    unfold rawTokenMatches at h
    obtain ⟨block, hblock, hmem⟩ := List.mem_flatten.mp h
    obtain ⟨e, he, heq⟩ := List.mem_map.mp hblock
    rw [← heq] at hmem
    by_cases hacc : acceptsWith f q e.1
    · rw [if_pos hacc] at hmem
      obtain ⟨p, hp, hpe⟩ := List.mem_filterMap.mp hmem
      by_cases hft : filtOn items filt p.1
      · rw [if_pos hft] at hpe
        injection hpe with hpe1
        have hid : p.1 = id := congrArg Prod.fst hpe1
        have htp : (e.1, identityOf e.1 q, p.2) = tp := congrArg Prod.snd hpe1
        subst htp
        refine ⟨hid ▸ hft, e.2, ?_, hid ▸ hp, by simpa [ruleAccepts] using hacc,
          Or.inr rfl⟩
        simpa using he
      · rw [if_neg hft] at hpe
        cases hpe
    · rw [if_neg hacc] at hmem
      cases hmem

theorem rawTokenMatches_complete {items : List Rec} {st : Indexed} {rule : MRule}
    {filt : Rec → Bool} {q : Token} {id : String} {w : Rat}
    {t : Token} {hits : List (String × Rat)}
    (hnd : (st.index.map Prod.fst).Nodup)
    (he : (t, hits) ∈ st.index) (hw : (id, w) ∈ hits)
    (hacc : ruleAccepts rule q t = true)
    (hfilt : filtOn items filt id = true) :
    ∃ tp, (id, tp) ∈ rawTokenMatches items st rule filt q ∧ tp.1 = t := by
  cases rule with
  | none =>
    have hqt : q = t := by simpa [ruleAccepts] using hacc
    subst hqt
    have hl : alookup q st.index = some hits := alookup_eq_some_of_mem hnd he
    refine ⟨(q, 1, w), ?_, rfl⟩
    unfold rawTokenMatches
    rw [hl]
    simp only [Option.getD_some]
    exact List.mem_filterMap.mpr ⟨(id, w), hw, by rw [if_pos hfilt]⟩
  | some f =>
    refine ⟨(t, identityOf t q, w), ?_, rfl⟩
    unfold rawTokenMatches
    apply List.mem_flatten.mpr
    refine ⟨(if acceptsWith f q t then hits.filterMap (fun p =>
      if filtOn items filt p.1 then some (p.1, (t, identityOf t q, p.2)) else none)
      else []), List.mem_map.mpr ⟨(t, hits), he, rfl⟩, ?_⟩
    have hacc2 : acceptsWith f q t = true := by simpa [ruleAccepts] using hacc
    rw [if_pos hacc2]
    exact List.mem_filterMap.mpr ⟨(id, w), hw, by rw [if_pos hfilt]⟩

theorem get_token_matches_keys_nodup (items : List Rec) (st : Indexed) (rule : MRule)
    (filt : Rec → Bool) (q : Token) :
    ((get_token_matches items st rule filt q).map Prod.fst).Nodup := by
  unfold get_token_matches
  rw [List.map_map]
  have h : (Prod.fst ∘ fun g : String × List Tup => (g.1, bestTup g.2)) = Prod.fst :=
    rfl
  rw [h]
  exact groupByID_keys_nodup _

theorem get_token_matches_src {items : List Rec} {st : Indexed} {rule : MRule}
    {filt : Rec → Bool} {q : Token} {id : String} {tp : Tup}
    (h : (id, tp) ∈ get_token_matches items st rule filt q) :
    (id, tp) ∈ rawTokenMatches items st rule filt q := by
  unfold get_token_matches at h
  obtain ⟨g, hg, hgeq⟩ := List.mem_map.mp h
  rcases g with ⟨k, ms⟩
  have hk : k = id := congrArg Prod.fst hgeq
  subst hk
  have htp : bestTup ms = tp := congrArg Prod.snd hgeq
  obtain ⟨hms, hne⟩ := mem_groupByID_eq hg
  have hmsne : ms ≠ [] := by
    intro h0
    rw [h0] at hms
    exact hne (List.map_eq_nil_iff.mp hms.symm)
  have hmem : tp ∈ ms := htp ▸ bestTup_mem hmsne
  rw [hms] at hmem
  obtain ⟨p, hp, hpeq⟩ := List.mem_map.mp hmem
  have hp1 : p.1 = k := by simpa using List.of_mem_filter hp
  have hpfull : p = (k, tp) := Prod.ext hp1 hpeq
  exact hpfull ▸ List.mem_of_mem_filter hp

theorem gtm_mem_keys {items : List Rec} {st : Indexed} {rule : MRule}
    {filt : Rec → Bool} {q : Token} {id : String} :
    id ∈ (get_token_matches items st rule filt q).map Prod.fst ↔
    id ∈ (rawTokenMatches items st rule filt q).map Prod.fst := by
  unfold get_token_matches
  rw [List.map_map]
  have h : (Prod.fst ∘ fun g : String × List Tup => (g.1, bestTup g.2)) = Prod.fst :=
    rfl
  rw [h]
  exact groupByID_mem_keys

theorem matchedGroups_inv {items : List Rec} {st : Indexed} {rule : MRule}
    {filt : Rec → Bool} {qtoks : List Token} {id : String} {ms : List Tup}
    (h : (id, ms) ∈ matchedGroups items st rule filt qtoks) :
    ms ≠ [] ∧
    ∀ tp ∈ ms, ∃ q ∈ qtoks, (id, tp) ∈ get_token_matches items st rule filt q := by
  obtain ⟨hms, hne⟩ := mem_groupByID_eq h
  refine ⟨?_, ?_⟩
  · intro h0
    rw [h0] at hms
    exact hne (List.map_eq_nil_iff.mp hms.symm)
  · intro tp htp
    rw [hms] at htp
    obtain ⟨p, hp, hptp⟩ := List.mem_map.mp htp
    have hpk : p.1 = id := by simpa using List.of_mem_filter hp
    have hpl := List.mem_of_mem_filter hp
    obtain ⟨block, hblock, hpblock⟩ := List.mem_flatten.mp hpl
    obtain ⟨q, hq, hqblock⟩ := List.mem_map.mp hblock
    refine ⟨q, hq, ?_⟩
    have hpfull : p = (id, tp) := Prod.ext hpk hptp
    rw [← hpfull, hqblock]
    exact hpblock

theorem matchedGroups_len {items : List Rec} {st : Indexed} {rule : MRule}
    {filt : Rec → Bool} {qtoks : List Token} {id : String} {ms : List Tup}
    (h : (id, ms) ∈ matchedGroups items st rule filt qtoks) :
    ms.length ≤ qtoks.length := by
  obtain ⟨hms, -⟩ := mem_groupByID_eq h
  rw [hms, List.length_map]
  have hgen : ∀ (ql : List Token),
      ((((ql.map (get_token_matches items st rule filt)).flatten).filter
        (fun p => p.1 = id)).length) ≤ ql.length := by
    intro ql
    induction ql with
    | nil => simp
    | cons q qs ih =>
      simp only [List.map_cons, List.flatten_cons, List.filter_append,
        List.length_append, List.length_cons]
      have h1 : ((get_token_matches items st rule filt q).filter
          (fun p => p.1 = id)).length ≤ 1 :=
        filter_fst_length_le_one (get_token_matches_keys_nodup items st rule filt q) id
      omega
  exact hgen qtoks

theorem matchedGroups_mem_of_key {items : List Rec} {st : Indexed} {rule : MRule}
    {filt : Rec → Bool} {qtoks : List Token} {id : String}
    (h : ∃ q ∈ qtoks, id ∈ (get_token_matches items st rule filt q).map Prod.fst) :
    ∃ ms, (id, ms) ∈ matchedGroups items st rule filt qtoks := by
  unfold matchedGroups
  obtain ⟨q, hq, hid⟩ := h
  have hflat : id ∈ ((qtoks.map (get_token_matches items st rule filt)).flatten).map
      Prod.fst := by
    obtain ⟨p, hp, hpid⟩ := List.mem_map.mp hid
    exact List.mem_map.mpr
      ⟨p, List.mem_flatten.mpr ⟨_, List.mem_map.mpr ⟨q, hq, rfl⟩, hp⟩, hpid⟩
  obtain ⟨ms, hms, -⟩ := groupByID_mem_of_key hflat
  exact ⟨ms, hms⟩

/-! ### Hit scoring lemmas -/

theorem scoreHits_ok_inv {items : List Rec} {P : Params} {useId : Bool}
    {groups : List (String × List Tup)} {hits : List (String × Rat × Nat)}
    (h : scoreHits items P useId groups = .ok hits) :
    hits = groups.filterMap (hitOf items P useId) ∧
    ∀ g ∈ groups, ∃ x subj, dbGet items g.1 = some x ∧
      get_item_tokens P x = some subj := by
  induction groups generalizing hits with
  | nil =>
    unfold scoreHits at h
    injection h with h
    subst h
    refine ⟨rfl, ?_⟩
    intro g hg
    cases hg
  | cons g rest ih =>
    rcases g with ⟨id, ms⟩
    unfold scoreHits at h
    simp only [bind, Except.bind] at h
    cases hdb : dbGet items id with
    | none =>
      rw [hdb] at h
      simp only [Option.elim] at h
      exact Except.noConfusion h
    | some x =>
      rw [hdb] at h
      simp only [Option.elim] at h
      cases hit : get_item_tokens P x with
      | none =>
        rw [hit] at h
        simp only [Option.elim] at h
        exact Except.noConfusion h
      | some subj =>
        rw [hit] at h
        simp only [Option.elim] at h
        cases hrest : scoreHits items P useId rest with
        | error e =>
          rw [hrest] at h
          exact Except.noConfusion h
        | ok tail =>
          rw [hrest] at h
          injection h with h
          obtain ⟨ih1, ih2⟩ := ih hrest
          constructor
          · rw [← h, List.filterMap_cons]
            have hhit : hitOf items P useId (id, ms) =
                (if (consume useId ms subj).2.1 = 0 then none
                 else some (id, (consume useId ms subj).1,
                   (consume useId ms subj).2.1)) := by
              simp [hitOf, hdb, hit]
            rw [hhit, ih1]
            by_cases hz : (consume useId ms subj).2.1 = 0
            · rw [if_pos hz, if_pos hz]
            · rw [if_neg hz, if_neg hz]
          · intro g2 hg2
            rcases List.mem_cons.mp hg2 with rfl | hg2
            · exact ⟨x, subj, hdb, hit⟩
            · exact ih2 g2 hg2

theorem scoreHits_ok_of_resolved {items : List Rec} {P : Params} {useId : Bool}
    {groups : List (String × List Tup)}
    (h : ∀ g ∈ groups, ∃ x, dbGet items g.1 = some x ∧
      (get_item_tokens P x).isSome) :
    ∃ hits, scoreHits items P useId groups = .ok hits := by
  induction groups with
  | nil => exact ⟨[], rfl⟩
  | cons g rest ih =>
    obtain ⟨x, hdb, hsub⟩ := h g (List.mem_cons_self _ _)
    obtain ⟨subj, hsubj⟩ := Option.isSome_iff_exists.mp hsub
    obtain ⟨tail, htail⟩ := ih (fun g2 hg2 => h g2 (List.mem_cons_of_mem _ hg2))
    rcases g with ⟨id, ms⟩
    refine ⟨if (consume useId ms subj).2.1 = 0 then tail
      else (id, (consume useId ms subj).1, (consume useId ms subj).2.1) :: tail, ?_⟩
    unfold scoreHits
    simp only [bind, Except.bind, hdb, Option.elim, hsubj, htail]

theorem scoresW_false_eq (items : List Rec) (st : Indexed) (query : List Char)
    (qlen : Nat) (hits : List (String × Rat × Nat)) :
    scoresW items st query qlen false hits =
      .ok (hits.map (fun g =>
        (g.1, g.2.1 / lookupMax st g.1 * ((g.2.2 : Rat) / (qlen : Rat))))) := by
  induction hits with
  | nil => rfl
  | cons g rest ih =>
    rcases g with ⟨id, raw, n⟩
    simp [scoresW, ih, bind, Except.bind]

theorem scoresW_ok_mem {items : List Rec} {st : Indexed} {query : List Char}
    {qlen : Nat} {wl : Bool} {hits : List (String × Rat × Nat)}
    {res : List (String × Rat)}
    (h : scoresW items st query qlen wl hits = .ok res) :
    (∀ p ∈ res, ∃ raw n, (p.1, raw, n) ∈ hits ∧
      ∃ m : Rat, 0 ≤ m ∧ m ≤ 1 ∧
        p.2 = raw / lookupMax st p.1 * ((n : Rat) / (qlen : Rat)) * m) ∧
    res.map Prod.fst = hits.map Prod.fst := by
  induction hits generalizing res with
  | nil =>
    unfold scoresW at h
    injection h with h
    subst h
    refine ⟨?_, rfl⟩
    intro p hp
    cases hp
  | cons g rest ih =>
    rcases g with ⟨id, raw, n⟩
    unfold scoresW at h
    simp only [bind, Except.bind] at h
    cases wl with
    | false =>
      cases hrest : scoresW items st query qlen false rest with
      | error e => rw [hrest] at h; exact Except.noConfusion h
      | ok tail =>
        rw [hrest] at h
        simp only [Except.bind] at h
        injection h with h
        obtain ⟨ih1, ih2⟩ := ih hrest
        constructor
        · intro p hp
          rw [← h] at hp
          rcases List.mem_cons.mp hp with rfl | hp
          · exact ⟨raw, n, List.mem_cons_self _ _, 1, by norm_num⟩
          · obtain ⟨raw2, n2, hmem, m, hm0, hm1, hpm⟩ := ih1 p hp
            exact ⟨raw2, n2, List.mem_cons_of_mem _ hmem, m, hm0, hm1, hpm⟩
        · rw [← h]
          simp [ih2]
    | true =>
      cases htxt : resolveText items id with
      | error e => rw [htxt] at h; exact Except.noConfusion h
      | ok txt =>
        rw [htxt] at h
        simp only [Except.map] at h
        cases hrest : scoresW items st query qlen true rest with
        | error e => rw [hrest] at h; exact Except.noConfusion h
        | ok tail =>
          rw [hrest] at h
          simp only [Except.bind] at h
          injection h with h
          obtain ⟨ih1, ih2⟩ := ih hrest
          constructor
          · intro p hp
            rw [← h] at hp
            rcases List.mem_cons.mp hp with rfl | hp
            · refine ⟨raw, n, List.mem_cons_self _ _,
                1 - get_norm_leven_dist query txt, ?_, ?_, rfl⟩
              · have := norm_leven_le_one query txt
                linarith
              · have := norm_leven_nonneg query txt
                linarith
            · obtain ⟨raw2, n2, hmem, m, hm0, hm1, hpm⟩ := ih1 p hp
              exact ⟨raw2, n2, List.mem_cons_of_mem _ hmem, m, hm0, hm1, hpm⟩
          · rw [← h]
            simp [ih2]

theorem scoresW_ok_of_resolved {items : List Rec} {st : Indexed} {query : List Char}
    {qlen : Nat} {wl : Bool} {hits : List (String × Rat × Nat)}
    (h : wl = true → ∀ g ∈ hits, ∃ txt, resolveText items g.1 = .ok txt) :
    ∃ res, scoresW items st query qlen wl hits = .ok res := by
  induction hits with
  | nil => exact ⟨[], rfl⟩
  | cons g rest ih =>
    rcases g with ⟨id, raw, n⟩
    obtain ⟨tail, htail⟩ := ih (fun hwl g2 hg2 => h hwl g2 (List.mem_cons_of_mem _ hg2))
    cases wl with
    | false =>
      refine ⟨(id, raw / lookupMax st id * ((n : Rat) / (qlen : Rat))) :: tail, ?_⟩
      simp [scoresW, bind, Except.bind, htail]
    | true =>
      obtain ⟨txt, htxt⟩ := h rfl (id, raw, n) (List.mem_cons_self _ _)
      refine ⟨(id, raw / lookupMax st id * ((n : Rat) / (qlen : Rat)) *
        (1 - get_norm_leven_dist query txt)) :: tail, ?_⟩
      simp [scoresW, bind, Except.bind, htxt, Except.map, htail]

theorem scoresL_ok_mem {items : List Rec} {query : List Char}
    {hits : List (String × Rat × Nat)} {res : List (String × Rat)}
    (h : scoresL items query hits = .ok res) :
    (∀ p ∈ res, ∃ txt, resolveText items p.1 = .ok txt ∧
      p.2 = 1 - get_norm_leven_dist query txt) ∧
    res.map Prod.fst = hits.map Prod.fst := by
  induction hits generalizing res with
  | nil =>
    unfold scoresL at h
    injection h with h
    subst h
    refine ⟨?_, rfl⟩
    intro p hp
    cases hp
  | cons g rest ih =>
    rcases g with ⟨id, raw, n⟩
    unfold scoresL at h
    simp only [bind, Except.bind] at h
    cases htxt : resolveText items id with
    | error e => rw [htxt] at h; exact Except.noConfusion h
    | ok txt =>
      rw [htxt] at h
      cases hrest : scoresL items query rest with
      | error e => rw [hrest] at h; exact Except.noConfusion h
      | ok tail =>
        rw [hrest] at h
        injection h with h
        obtain ⟨ih1, ih2⟩ := ih hrest
        constructor
        · intro p hp
          rw [← h] at hp
          rcases List.mem_cons.mp hp with rfl | hp
          · exact ⟨txt, htxt, rfl⟩
          · exact ih1 p hp
        · rw [← h]
          simp [ih2]

theorem scoresL_ok_of_resolved {items : List Rec} {query : List Char}
    {hits : List (String × Rat × Nat)}
    (h : ∀ g ∈ hits, ∃ txt, resolveText items g.1 = .ok txt) :
    ∃ res, scoresL items query hits = .ok res := by
  induction hits with
  | nil => exact ⟨[], rfl⟩
  | cons g rest ih =>
    rcases g with ⟨id, raw, n⟩
    obtain ⟨tail, htail⟩ := ih (fun g2 hg2 => h g2 (List.mem_cons_of_mem _ hg2))
    obtain ⟨txt, htxt⟩ := h (id, raw, n) (List.mem_cons_self _ _)
    refine ⟨(id, 1 - get_norm_leven_dist query txt) :: tail, ?_⟩
    simp [scoresL, bind, Except.bind, htxt, htail]

/-! ### Search decomposition lemmas -/

theorem search_ok_inv {items : List Rec} {st : Indexed} {query : List Char}
    {rule : MRule} {filt : Rec → Bool} {scoring : String} {res : List (String × Rat)}
    (h : search items st query rule filt scoring = .ok res) :
    ∃ hits, scoreHits items st.parameters (scoring = "w")
        (matchedGroups items st rule filt
          (tokensOf st.parameters.min_len query)) = .ok hits ∧
      (((scoring = "w" ∨ scoring = "w+l") ∧
        ∃ res0, scoresW items st query
            (tokensOf st.parameters.min_len query).length
            (scoring = "w+l") hits = .ok res0 ∧ res = sortDesc res0) ∨
       (scoring = "l" ∧
        ∃ res0, scoresL items query hits = .ok res0 ∧ res = sortDesc res0)) := by
  simp only [search] at h
  cases hsh : scoreHits items st.parameters (scoring = "w")
      (matchedGroups items st rule filt (tokensOf st.parameters.min_len query)) with
  | error e =>
    simp only [hsh] at h
    exact Except.noConfusion h
  | ok hits =>
    simp only [hsh] at h
    refine ⟨hits, rfl, ?_⟩
    by_cases hw : scoring = "w" ∨ scoring = "w+l"
    · rw [if_pos hw] at h
      cases hsw : scoresW items st query
          (tokensOf st.parameters.min_len query).length (scoring = "w+l") hits with
      | error e =>
        rw [hsw] at h
        exact Except.noConfusion h
      | ok res0 =>
        rw [hsw] at h
        simp only [Except.map] at h
        injection h with h
        exact Or.inl ⟨hw, res0, rfl, h.symm⟩
    · rw [if_neg hw] at h
      by_cases hl : scoring = "l"
      · rw [if_pos hl] at h
        cases hsl : scoresL items query hits with
        | error e =>
          rw [hsl] at h
          exact Except.noConfusion h
        | ok res0 =>
          rw [hsl] at h
          simp only [Except.map] at h
          injection h with h
          exact Or.inr ⟨hl, res0, rfl, h.symm⟩
      · rw [if_neg hl] at h
        exact Except.noConfusion h

theorem hit_ids_sub {items : List Rec} {P : Params} {useId : Bool}
    {groups : List (String × List Tup)} {id : String} {rn : Rat × Nat}
    (h : (id, rn) ∈ groups.filterMap (hitOf items P useId)) :
    ∃ ms, (id, ms) ∈ groups ∧
      hitOf items P useId (id, ms) = some (id, rn) := by
  obtain ⟨g, hg, hgeq⟩ := List.mem_filterMap.mp h
  rcases g with ⟨gid, ms⟩
  have hid : gid = id := by
    unfold hitOf at hgeq
    cases hdb : dbGet items gid with
    | none => rw [hdb] at hgeq; cases hgeq
    | some x =>
      rw [hdb] at hgeq
      simp only [Option.some_bind] at hgeq
      cases hit : get_item_tokens P x with
      | none => rw [hit] at hgeq; cases hgeq
      | some subj =>
        rw [hit] at hgeq
        simp only [Option.some_bind] at hgeq
        by_cases hz : (consume useId ms subj).2.1 = 0
        · rw [if_pos hz] at hgeq; cases hgeq
        · rw [if_neg hz] at hgeq
          injection hgeq with hgeq
          exact congrArg Prod.fst hgeq
  subst hid
  exact ⟨ms, hg, hgeq⟩

theorem hitOf_some_inv {items : List Rec} {P : Params} {useId : Bool}
    {id : String} {ms : List Tup} {raw : Rat} {n : Nat}
    (h : hitOf items P useId (id, ms) = some (id, raw, n)) :
    ∃ x subj, dbGet items id = some x ∧ get_item_tokens P x = some subj ∧
      raw = (consume useId ms subj).1 ∧ n = (consume useId ms subj).2.1 ∧ n ≠ 0 := by
  unfold hitOf at h
  cases hdb : dbGet items id with
  | none => rw [hdb] at h; cases h
  | some x =>
    rw [hdb] at h
    simp only [Option.some_bind] at h
    cases hit : get_item_tokens P x with
    | none => rw [hit] at h; cases h
    | some subj =>
      rw [hit] at h
      simp only [Option.some_bind] at h
      by_cases hz : (consume useId ms subj).2.1 = 0
      · rw [if_pos hz] at h; cases h
      · rw [if_neg hz] at h
        injection h with h
        have h21 : (consume useId ms subj).1 = raw :=
          congrArg (fun p : String × Rat × Nat => p.2.1) h
        have h22 : (consume useId ms subj).2.1 = n :=
          congrArg (fun p : String × Rat × Nat => p.2.2) h
        exact ⟨x, subj, rfl, hit, h21.symm, h22.symm, fun hn0 => hz (h22.trans hn0)⟩

/-- Every match tuple of a matched record is a stored index weight of that
record together with an identity in the unit interval. -/
theorem tuple_facts {vs : List Rec} {P : Params} {score : Rec → Token → Rat}
    {st : Indexed} (hmk : make_index vs P score = .ok st)
    {rule : MRule} {filt : Rec → Bool} {qtoks : List Token}
    {id : String} {ms : List Tup} {x : Rec}
    (hms : (id, ms) ∈ matchedGroups (dbItems vs) st rule filt qtoks)
    (hdb : dbGet (dbItems vs) id = some x) :
    ∀ tp ∈ ms, tp.2.2 = score x tp.1 ∧ score x tp.1 ≠ 0 ∧
      0 ≤ tp.2.1 ∧ tp.2.1 ≤ 1 := by
  intro tp htp
  obtain ⟨-, hsrc⟩ := matchedGroups_inv hms
  obtain ⟨q, -, hgtm⟩ := hsrc tp htp
  have hraw := get_token_matches_src hgtm
  obtain ⟨-, hits, hent, hw, -, hidn⟩ := rawTokenMatches_inv hraw
  obtain ⟨x2, hx2, hx2id, hweq, hwne⟩ := make_index_entry_weights hmk hent hw
  have hx2x : x2 = x := by
    have hget : dbGet (dbItems vs) x2.ID = some x2 :=
      dbGet_of_mem (dbItems_IDs_nodup vs) hx2
    rw [hx2id, hdb] at hget
    exact (Option.some_inj.mp hget).symm
  subst hx2x
  refine ⟨hweq, hwne, ?_, ?_⟩
  · rcases hidn with h1 | h1
    · rw [h1]; norm_num
    · rw [h1]; exact identityOf_nonneg _ _
  · rcases hidn with h1 | h1
    · rw [h1]
    · rw [h1]; exact identityOf_le_one _ _

/-- The central bound: a hit of the scoring loop has a nonnegative raw
score bounded by the stored maximum score, which is positive, and a
consumed-token count between 1 and the query token count. -/
theorem hit_bound {vs : List Rec} {P : Params} {score : Rec → Token → Rat}
    {st : Indexed} (hmk : make_index vs P score = .ok st) (hok : ScoreOK P score)
    {rule : MRule} {filt : Rec → Bool} {qtoks : List Token} {useId : Bool}
    {id : String} {raw : Rat} {n : Nat}
    (hhit : (id, (raw, n)) ∈ (matchedGroups (dbItems vs) st rule filt qtoks).filterMap
        (hitOf (dbItems vs) P useId)) :
    0 ≤ raw ∧ raw ≤ lookupMax st id ∧ 0 < lookupMax st id ∧
      1 ≤ n ∧ n ≤ qtoks.length := by
  obtain ⟨ms, hms, hhof⟩ := hit_ids_sub hhit
  obtain ⟨x, subj, hdb, hit, hraw, hn, hn0⟩ := hitOf_some_inv hhof
  have htf := tuple_facts hmk hms hdb
  have htf2 : ∀ tp ∈ ms, 0 ≤ tp.2.2 ∧ 0 ≤ tp.2.1 ∧ tp.2.1 ≤ 1 ∧
      tp.2.2 ≤ score x tp.1 := by
    intro tp htp
    obtain ⟨heq, hne, h0, h1⟩ := htf tp htp
    exact ⟨heq ▸ hok.1 x tp.1, h0, h1, le_of_eq heq⟩
  have hrawle : (consume useId ms subj).1 ≤ (subj.map (score x)).sum :=
    consume_raw_le useId ms subj (score x) (hok.1 x) htf2
  have hrawnn : 0 ≤ (consume useId ms subj).1 :=
    consume_raw_nonneg useId ms subj (fun tp htp => ⟨(htf2 tp htp).1, (htf2 tp htp).2.1⟩)
  have hsubjne : subj ≠ [] := by
    intro h0
    rw [h0, consume_nil_subj] at hn
    exact hn0 hn
  have hlook : alookup id st.max_scores = some ((subj.map (score x)).sum) := by
    have := make_index_max_lookup hmk (dbGet_eq_some hdb).1 hit hsubjne
    rwa [(dbGet_eq_some hdb).2] at this
  have hmaxeq : lookupMax st id = (subj.map (score x)).sum := by
    unfold lookupMax
    rw [hlook]
    rfl
  have hmspos : 0 < (subj.map (score x)).sum := by
    obtain ⟨hmsne, -⟩ := matchedGroups_inv hms
    obtain ⟨tp, htp⟩ := List.exists_mem_of_ne_nil _ hmsne
    obtain ⟨heq, hne, -, -⟩ := htf tp htp
    have htmem : tp.1 ∈ subj := by
      have := hok.2 x tp.1 hne
      rwa [hit] at this
    have hle : score x tp.1 ≤ (subj.map (score x)).sum := by
      apply List.single_le_sum
      · intro a ha
        obtain ⟨u, -, rfl⟩ := List.mem_map.mp ha
        exact hok.1 x u
      · exact List.mem_map.mpr ⟨tp.1, htmem, rfl⟩
    have : 0 < score x tp.1 := lt_of_le_of_ne (hok.1 x tp.1) (Ne.symm hne)
    linarith
  refine ⟨hraw ▸ hrawnn, ?_, ?_, ?_, ?_⟩
  · rw [hraw, hmaxeq]
    exact hrawle
  · rw [hmaxeq]
    exact hmspos
  · omega
  · rw [hn]
    exact le_trans (consume_n_le useId ms subj) (matchedGroups_len hms)

/-! ### Score bound and result membership -/

theorem weighted_score_bound {vs : List Rec} {P : Params} {score : Rec → Token → Rat}
    {st : Indexed} {query : List Char} {rule : MRule} {filt : Rec → Bool}
    {scoring : String} {res : List (String × Rat)}
    (hmk : make_index vs P score = .ok st) (hok : ScoreOK P score)
    (hsc : scoring = "w" ∨ scoring = "w+l")
    (h : search (dbItems vs) st query rule filt scoring = .ok res) :
    ∀ p ∈ res, 0 ≤ p.2 ∧ p.2 ≤ 1 := by
  obtain ⟨hits, hsh, hcase⟩ := search_ok_inv h
  rcases hcase with ⟨-, res0, hsw, hres⟩ | ⟨hl, -⟩
  · intro p hp
    rw [hres] at hp
    have hp0 := mem_sortDesc.mp hp
    obtain ⟨hmem, -⟩ := scoresW_ok_mem hsw
    obtain ⟨raw, n, hhits, m, hm0, hm1, hpv⟩ := hmem p hp0
    obtain ⟨hfm, -⟩ := scoreHits_ok_inv hsh
    rw [hfm] at hhits
    have hP := make_index_params hmk
    rw [hP] at hhits hpv
    obtain ⟨hr0, hrle, hmp, hn1, hnq⟩ := hit_bound hmk hok hhits
    have hQpos : (0 : Rat) < ((tokensOf P.min_len query).length : Rat) := by
      have h1n : (1 : Nat) ≤ (tokensOf P.min_len query).length := le_trans hn1 hnq
      exact_mod_cast Nat.lt_of_lt_of_le Nat.zero_lt_one h1n
    have h1 : raw / lookupMax st p.1 ≤ 1 := (div_le_one hmp).mpr hrle
    have h2 : 0 ≤ raw / lookupMax st p.1 := div_nonneg hr0 (le_of_lt hmp)
    have h3 : ((n : Rat)) / ((tokensOf P.min_len query).length : Rat) ≤ 1 :=
      (div_le_one hQpos).mpr (by exact_mod_cast hnq)
    have h4 : 0 ≤ ((n : Rat)) / ((tokensOf P.min_len query).length : Rat) :=
      div_nonneg (by positivity) (le_of_lt hQpos)
    rw [hpv]
    constructor
    · exact mul_nonneg (mul_nonneg h2 h4) hm0
    · exact mul_le_one₀ (mul_le_one₀ h1 h4 h3) hm0 hm1
  · subst hl
    rcases hsc with h1 | h1 <;> exact absurd h1 (by decide)

theorem res_key_inv {vs : List Rec} {P : Params} {score : Rec → Token → Rat}
    {st : Indexed} {query : List Char} {rule : MRule} {filt : Rec → Bool}
    {scoring : String} {res : List (String × Rat)} {id : String}
    (hmk : make_index vs P score = .ok st)
    (h : search (dbItems vs) st query rule filt scoring = .ok res)
    (hid : id ∈ res.map Prod.fst) :
    ∃ x ∈ dbItems vs, x.ID = id ∧ filt x = true ∧
      ∃ t hits2 w, (t, hits2) ∈ st.index ∧ (id, w) ∈ hits2 ∧
        ∃ q ∈ tokensOf P.min_len query, ruleAccepts rule q t = true ∧
          w = score x t ∧ score x t ≠ 0 := by
  have hP := make_index_params hmk
  obtain ⟨hits, hsh, hcase⟩ := search_ok_inv h
  have hid2 : id ∈ hits.map Prod.fst := by
    rcases hcase with ⟨-, res0, hsw, hres⟩ | ⟨-, res0, hsl, hres⟩
    · obtain ⟨-, hfst⟩ := scoresW_ok_mem hsw
      rw [← hfst]
      obtain ⟨p, hp, hpid⟩ := List.mem_map.mp hid
      rw [hres] at hp
      exact List.mem_map.mpr ⟨p, mem_sortDesc.mp hp, hpid⟩
    · obtain ⟨-, hfst⟩ := scoresL_ok_mem hsl
      rw [← hfst]
      obtain ⟨p, hp, hpid⟩ := List.mem_map.mp hid
      rw [hres] at hp
      exact List.mem_map.mpr ⟨p, mem_sortDesc.mp hp, hpid⟩
  obtain ⟨hfm, -⟩ := scoreHits_ok_inv hsh
  rw [hfm] at hid2
  obtain ⟨p2, hp2, hp2id⟩ := List.mem_map.mp hid2
  rcases p2 with ⟨id2, rn⟩
  simp only at hp2id
  rw [hp2id] at hp2
  obtain ⟨ms, hms, -⟩ := hit_ids_sub hp2
  obtain ⟨hmsne, hsrc⟩ := matchedGroups_inv hms
  obtain ⟨tp, htp⟩ := List.exists_mem_of_ne_nil _ hmsne
  obtain ⟨q, hq, hgtm⟩ := hsrc tp htp
  have hraw := get_token_matches_src hgtm
  obtain ⟨hfilt, hits2, hent, hw, hacc, -⟩ := rawTokenMatches_inv hraw
  unfold filtOn at hfilt
  cases hdb : dbGet (dbItems vs) id with
  | none => rw [hdb] at hfilt; cases hfilt
  | some x =>
    rw [hdb] at hfilt
    obtain ⟨hxmem, hxid⟩ := dbGet_eq_some hdb
    obtain ⟨x2, hx2, hx2id, hweq, hwne⟩ := make_index_entry_weights hmk hent hw
    have hx2x : x2 = x := by
      have hget : dbGet (dbItems vs) x2.ID = some x2 :=
        dbGet_of_mem (dbItems_IDs_nodup vs) hx2
      rw [hx2id, hdb] at hget
      exact (Option.some_inj.mp hget).symm
    rw [hx2x] at hweq hwne
    rw [hP] at hq
    exact ⟨x, hxmem, hxid, hfilt, tp.1, hits2, tp.2.2, hent, hw, q, hq, hacc,
      hweq, hwne⟩

theorem res_key_complete {vs : List Rec} {P : Params} {score : Rec → Token → Rat}
    {st : Indexed} {query : List Char} {rule : MRule} {filt : Rec → Bool}
    {scoring : String} {res : List (String × Rat)} {id : String}
    (hmk : make_index vs P score = .ok st) (hok : ScoreOK P score)
    (h : search (dbItems vs) st query rule filt scoring = .ok res)
    {x : Rec} (hx : x ∈ dbItems vs) (hxid : x.ID = id) (hfx : filt x = true)
    {t : Token} {hits2 : List (String × Rat)} {w : Rat}
    (hent : (t, hits2) ∈ st.index) (hw : (id, w) ∈ hits2)
    {q : Token} (hq : q ∈ tokensOf P.min_len query)
    (hacc : ruleAccepts rule q t = true) :
    id ∈ res.map Prod.fst := by
  have hP := make_index_params hmk
  obtain ⟨hits, hsh, hcase⟩ := search_ok_inv h
  have hnd := make_index_keys_nodup hmk
  have hfilt : filtOn (dbItems vs) filt id = true := by
    unfold filtOn
    rw [← hxid, dbGet_of_mem (dbItems_IDs_nodup vs) hx]
    exact hfx
  obtain ⟨tp, htpraw, -⟩ := rawTokenMatches_complete hnd hent hw hacc hfilt
  have hkey : id ∈ (get_token_matches (dbItems vs) st rule filt q).map Prod.fst :=
    gtm_mem_keys.mpr (List.mem_map.mpr ⟨(id, tp), htpraw, rfl⟩)
  rw [← hP] at hq
  obtain ⟨ms, hms⟩ := matchedGroups_mem_of_key ⟨q, hq, hkey⟩
  obtain ⟨-, hres2⟩ := scoreHits_ok_inv hsh
  obtain ⟨x3, subj, hdb3, hsubj⟩ := hres2 (id, ms) hms
  have hx3 : x3 = x := by
    have hget : dbGet (dbItems vs) x.ID = some x :=
      dbGet_of_mem (dbItems_IDs_nodup vs) hx
    rw [hxid] at hget
    rw [hget] at hdb3
    exact (Option.some_inj.mp hdb3).symm
  subst hx3
  obtain ⟨hmsne, -⟩ := matchedGroups_inv hms
  have htf := tuple_facts hmk hms hdb3
  rw [hP] at hsubj
  obtain ⟨tp0, ms2, hms2⟩ :
      ∃ tp0 ms2, ms = tp0 :: ms2 := by
    cases ms with
    | nil => exact absurd rfl hmsne
    | cons a b => exact ⟨a, b, rfl⟩
  have htp0 : tp0.1 ∈ subj := by
    obtain ⟨-, hne, -, -⟩ := htf tp0 (hms2 ▸ List.mem_cons_self _ _)
    have := hok.2 x3 tp0.1 hne
    rwa [hsubj] at this
  have hnpos : 1 ≤ (consume (scoring = "w") ms subj).2.1 := by
    rw [hms2]
    rcases tp0 with ⟨t0, i0, s0⟩
    exact consume_head_mem_pos _ _ _ _ _ _ htp0
  have hhof : hitOf (dbItems vs) st.parameters (scoring = "w") (id, ms) =
      some (id, (consume (scoring = "w") ms subj).1,
        (consume (scoring = "w") ms subj).2.1) := by
    unfold hitOf
    rw [hP]
    simp only [hdb3, Option.some_bind, hsubj]
    rw [if_neg (by omega)]
  have hhits : (id, (consume (scoring = "w") ms subj).1,
      (consume (scoring = "w") ms subj).2.1) ∈ hits := by
    obtain ⟨hfm, -⟩ := scoreHits_ok_inv hsh
    rw [hfm]
    exact List.mem_filterMap.mpr ⟨(id, ms), hms, hhof⟩
  have hidh : id ∈ hits.map Prod.fst := List.mem_map.mpr ⟨_, hhits, rfl⟩
  rcases hcase with ⟨-, res0, hsw, hres⟩ | ⟨-, res0, hsl, hres⟩
  · obtain ⟨-, hfst⟩ := scoresW_ok_mem hsw
    rw [← hfst] at hidh
    obtain ⟨p, hp, hpid⟩ := List.mem_map.mp hidh
    exact List.mem_map.mpr ⟨p, by rw [hres]; exact mem_sortDesc.mpr hp, hpid⟩
  · obtain ⟨-, hfst⟩ := scoresL_ok_mem hsl
    rw [← hfst] at hidh
    obtain ⟨p, hp, hpid⟩ := List.mem_map.mp hidh
    exact List.mem_map.mpr ⟨p, by rw [hres]; exact mem_sortDesc.mpr hp, hpid⟩

/-! ### Exact self-match machinery -/

theorem filter_key_singleton {β : Type _} {l : List (String × β)}
    (hnd : (l.map Prod.fst).Nodup) {k : String} {v : β} (hm : (k, v) ∈ l) :
    l.filter (fun p => p.1 = k) = [(k, v)] := by
  induction l with
  | nil => cases hm
  | cons p rest ih =>
    simp only [List.map_cons, List.nodup_cons] at hnd
    rcases List.mem_cons.mp hm with h1 | h1
    · rw [← h1]
      have hrest : rest.filter (fun p => p.1 = k) = [] := by
        apply List.filter_eq_nil_iff.mpr
        intro q hq hq1
        have hqk : q.1 = k := by simpa using hq1
        rw [← h1] at hnd
        exact hnd.1 (hqk ▸ List.mem_map.mpr ⟨q, hq, rfl⟩)
      simp [List.filter_cons, hrest]
    · have hne : ¬p.1 = k := by
        intro hpk
        have hk : k ∈ rest.map Prod.fst := List.mem_map.mpr ⟨(k, v), h1, rfl⟩
        exact hnd.1 (hpk ▸ hk)
      simp only [List.filter_cons, hne, decide_False, Bool.false_eq_true, if_false]
      exact ih hnd.2 h1

theorem filterMap_eq_map_of_some {α β : Type _} {l : List α} {f : α → Option β}
    {g : α → β} (h : ∀ a ∈ l, f a = some (g a)) : l.filterMap f = l.map g := by
  induction l with
  | nil => simp
  | cons a rest ih =>
    rw [List.filterMap_cons, h a (List.mem_cons_self _ _), List.map_cons,
      ih (fun b hb => h b (List.mem_cons_of_mem _ hb))]

theorem filter_flatten_eq {α : Type _} (p : α → Bool) (L : List (List α)) :
    L.flatten.filter p = (L.map (fun l => l.filter p)).flatten := by
  induction L with
  | nil => simp
  | cons l rest ih => simp [List.filter_append, ih]

theorem flatten_map_singleton {α β : Type _} (g : α → β) (l : List α) :
    (l.map (fun a => [g a])).flatten = l.map g := by
  induction l with
  | nil => simp
  | cons a rest ih => simp [ih]

theorem make_index_entry_ids_nodup {vs : List Rec} {P : Params}
    {score : Rec → Token → Rat} {st : Indexed}
    (h : make_index vs P score = .ok st) {t : Token} {hits : List (String × Rat)}
    (hmem : (t, hits) ∈ st.index) : (hits.map Prod.fst).Nodup := by
  obtain ⟨-, -, -, ⟨vocab, -, hidx, -⟩, -⟩ := make_index_inv h
  rw [hidx] at hmem
  obtain ⟨u, -, hueq⟩ := List.mem_map.mp hmem
  have hhits : hits = (dbItems vs).filterMap (fun x =>
      if score x u ≠ 0 then some (x.ID, score x u) else none) :=
    (congrArg Prod.snd hueq).symm
  rw [hhits]
  refine List.Sublist.nodup ?_ (dbItems_IDs_nodup vs)
  apply filterMap_keyed_sublist
  intro y p hyp
  by_cases hs : score y u ≠ 0
  · rw [if_pos hs] at hyp
    injection hyp with hyp
    exact congrArg Prod.fst hyp.symm
  · rw [if_neg hs] at hyp
    cases hyp

theorem groups_resolved {vs : List Rec} {P : Params} {score : Rec → Token → Rat}
    {st : Indexed} {rule : MRule} {filt : Rec → Bool} {qtoks : List Token}
    (hmk : make_index vs P score = .ok st) :
    ∀ g ∈ matchedGroups (dbItems vs) st rule filt qtoks,
      ∃ x, dbGet (dbItems vs) g.1 = some x ∧ (get_item_tokens P x).isSome := by
  intro g hg
  rcases g with ⟨id, ms⟩
  obtain ⟨hmsne, hsrc⟩ := matchedGroups_inv hg
  obtain ⟨tp, htp⟩ := List.exists_mem_of_ne_nil _ hmsne
  obtain ⟨q, -, hgtm⟩ := hsrc tp htp
  obtain ⟨hfilt, -⟩ := rawTokenMatches_inv (get_token_matches_src hgtm)
  unfold filtOn at hfilt
  cases hdb : dbGet (dbItems vs) id with
  | none => rw [hdb] at hfilt; cases hfilt
  | some x =>
    obtain ⟨ts2, hts2⟩ := make_index_item_toks hmk (dbGet_eq_some hdb).1
    exact ⟨x, rfl, by rw [hts2]; rfl⟩

theorem search_ok_of_resolved {items : List Rec} {st : Indexed} {query : List Char}
    {rule : MRule} {filt : Rec → Bool} {scoring : String}
    (hval : scoring = "w" ∨ scoring = "w+l" ∨ scoring = "l")
    (hres : ∀ g ∈ matchedGroups items st rule filt
        (tokensOf st.parameters.min_len query),
      ∃ x, dbGet items g.1 = some x ∧ (get_item_tokens st.parameters x).isSome)
    (htxt : scoring = "w+l" ∨ scoring = "l" →
      ∀ g ∈ matchedGroups items st rule filt
          (tokensOf st.parameters.min_len query),
        ∃ txt, resolveText items g.1 = .ok txt) :
    ∃ res, search items st query rule filt scoring = .ok res := by
  obtain ⟨hits, hsh⟩ : ∃ hits, scoreHits items st.parameters (scoring = "w")
      (matchedGroups items st rule filt
        (tokensOf st.parameters.min_len query)) = .ok hits :=
    scoreHits_ok_of_resolved hres
  have hhitres : scoring = "w+l" ∨ scoring = "l" →
      ∀ g ∈ hits, ∃ txt, resolveText items g.1 = .ok txt := by
    intro hsl g hg
    obtain ⟨hfm, -⟩ := scoreHits_ok_inv hsh
    rw [hfm] at hg
    rcases g with ⟨id, rn⟩
    obtain ⟨ms, hms, -⟩ := hit_ids_sub hg
    exact htxt hsl (id, ms) hms
  by_cases hw : scoring = "w" ∨ scoring = "w+l"
  · obtain ⟨res0, hsw⟩ : ∃ res0, scoresW items st query
        (tokensOf st.parameters.min_len query).length (scoring = "w+l") hits =
        .ok res0 :=
      scoresW_ok_of_resolved (fun hd => hhitres (Or.inl (of_decide_eq_true hd)))
    refine ⟨sortDesc res0, ?_⟩
    simp only [search, hsh]
    rw [if_pos hw, hsw]
    rfl
  · have hl : scoring = "l" := by
      rcases hval with h1 | h1 | h1
      · exact absurd (Or.inl h1) hw
      · exact absurd (Or.inr h1) hw
      · exact h1
    obtain ⟨res0, hsl⟩ : ∃ res0, scoresL items query hits = .ok res0 :=
      scoresL_ok_of_resolved (hhitres (Or.inr hl))
    refine ⟨sortDesc res0, ?_⟩
    simp only [search, hsh]
    rw [if_neg hw, if_pos hl, hsl]
    rfl

theorem search_empty_query {items : List Rec} {st : Indexed} {query : List Char}
    {rule : MRule} {filt : Rec → Bool} {scoring : String}
    (hq : tokensOf st.parameters.min_len query = [])
    (hval : scoring = "w" ∨ scoring = "w+l" ∨ scoring = "l") :
    search items st query rule filt scoring = .ok [] := by
  rcases hval with rfl | rfl | rfl <;>
    simp [search, hq, matchedGroups, groupByID, scoreHits, scoresW, scoresL,
      sortDesc, Except.map]

/-! ### Further structural helpers -/

theorem seqOpt_eq_none_of_mem {l : List (Option α)} (h : none ∈ l) :
    seqOpt l = none := by
  induction l with
  | nil => cases h
  | cons o rest ih =>
    cases o with
    | none => rfl
    | some a =>
      rcases List.mem_cons.mp h with h1 | h1
      · exact Option.noConfusion h1
      · simp [seqOpt, ih h1]

theorem insertTup_not_mem {acc : List (String × List Tup)} {id : String}
    (h : id ∉ acc.map Prod.fst) (tp : Tup) :
    insertTup acc id tp = acc ++ [(id, [tp])] := by
  induction acc with
  | nil => rfl
  | cons p rest ih =>
    rcases p with ⟨k, tps⟩
    simp only [List.map_cons, List.mem_cons] at h
    push_neg at h
    simp only [insertTup]
    rw [if_neg (fun hk => h.1 hk.symm), ih h.2]
    rfl

theorem groupByID_of_nodup {l : List (String × Tup)}
    (h : (l.map Prod.fst).Nodup) :
    groupByID l = l.map (fun p => (p.1, [p.2])) := by
  induction l using List.reverseRecOn with
  | nil => rfl
  | append_singleton l p ih =>
    rw [groupByID_append]
    have hmap : (l ++ [p]).map Prod.fst = l.map Prod.fst ++ [p.1] := by simp
    rw [hmap] at h
    obtain ⟨hnd, -, hdisj⟩ := List.nodup_append.mp h
    have hnm : p.1 ∉ (groupByID l).map Prod.fst := by
      intro hmem
      exact hdisj (groupByID_mem_keys.mp hmem) (List.mem_singleton.mpr rfl)
    rw [insertTup_not_mem hnm, ih hnd]
    simp

theorem gtm_exact_eq {items : List Rec} {st : Indexed} {filt : Rec → Bool}
    {q : Token} {hits : List (String × Rat)}
    (hal : alookup q st.index = some hits)
    (hnd : (hits.map Prod.fst).Nodup)
    (hft : ∀ p ∈ hits, filtOn items filt p.1 = true) :
    get_token_matches items st none filt q =
      hits.map (fun p => (p.1, ((q, (1 : Rat), p.2) : Tup))) := by
  have hraw : rawTokenMatches items st none filt q =
      hits.map (fun p => (p.1, ((q, (1 : Rat), p.2) : Tup))) := by
    unfold rawTokenMatches
    rw [hal]
    exact filterMap_eq_map_of_some (fun p hp => by rw [if_pos (hft p hp)])
  have hnd2 : ((hits.map (fun p => (p.1, ((q, (1 : Rat), p.2) : Tup)))).map
      Prod.fst).Nodup := by
    rw [List.map_map]
    exact hnd
  unfold get_token_matches
  rw [hraw, groupByID_of_nodup hnd2, List.map_map, List.map_map]
  exact List.map_congr_left (fun p hp => rfl)

theorem count_removeFirst {t : Token} {subj : List Token} (h : t ∈ subj) :
    (removeFirst t subj).count t = subj.count t - 1 := by
  induction subj with
  | nil => cases h
  | cons u us ih =>
    by_cases hu : u = t
    · subst hu
      simp [removeFirst]
    · have ht : t ∈ us := by
        rcases List.mem_cons.mp h with h1 | h1
        · exact absurd h1.symm hu
        · exact h1
      have hne : (t == u) = false := beq_eq_false_iff_ne.mpr (fun he => hu he.symm)
      have hpos := List.count_pos_iff.mpr ht
      simp only [removeFirst, hu, if_neg, not_false_eq_true, if_false,
        List.count_cons, hne, ih ht]
      omega

theorem count_removeFirst_pos {t : Token} {subj : List Token} (h : t ∈ subj) :
    1 ≤ subj.count t := List.count_pos_iff.mpr h

theorem consume_same_token (useId : Bool) (t : Token) :
    ∀ (ms : List Tup) (subj : List Token), (∀ tp ∈ ms, tp.1 = t) →
    (consume useId ms subj).2.1 = min ms.length (subj.count t) := by
  intro ms
  induction ms with
  | nil =>
    intro subj _
    simp [consume]
  | cons tp ms ih =>
    intro subj hall
    have ht : tp.1 = t := hall tp (List.mem_cons_self _ _)
    rcases tp with ⟨t0, idn, sc⟩
    simp only at ht
    subst ht
    have hrest : ∀ tp ∈ ms, tp.1 = t0 :=
      fun tp htp => hall tp (List.mem_cons_of_mem _ htp)
    by_cases hmem : t0 ∈ subj
    · simp only [consume, hmem, if_pos, List.length_cons]
      rw [ih (removeFirst t0 subj) hrest, count_removeFirst hmem]
      have := count_removeFirst_pos hmem
      omega
    · have hc0 : subj.count t0 = 0 := List.count_eq_zero.mpr hmem
      simp only [consume, hmem, if_neg, not_false_eq_true, if_false, List.length_cons]
      rw [ih subj hrest, hc0]
      omega

theorem mismatch_rule_eq {q : Token} {n : Nat} (h : q.length = n) (hn : 1 ≤ n) :
    mismatch_rule q = if intLog2 n < 2 then 0 else intLog2 n - 1 := by
  have hq : q.isEmpty = false := by
    cases q with
    | nil => rw [List.length_nil] at h; omega
    | cons a as => rfl
  unfold mismatch_rule
  rw [hq]
  simp only [Bool.false_eq_true, if_false, h]
  have hiff : ((intLog2 n : Int) - 1 < 1) ↔ intLog2 n < 2 := by omega
  by_cases h2 : intLog2 n < 2
  · rw [if_pos (hiff.mpr h2), if_pos h2]
  · rw [if_neg (fun hc => h2 (hiff.mp hc)), if_neg h2]
    omega

/-- Self-query core: a record searched with its own corpus text under the
count weighting, exact matching and weighted scoring gets the exact score 1,
and the top-ranked score is 1. -/
theorem self_query_core {vs : List Rec} {P : Params}
    {score : Rec → Token → Rat} {st : Indexed} {R : Rec}
    (hmk : make_index vs P score = .ok st) (hok : ScoreOK P score)
    (hR : R ∈ dbItems vs) {txt : List Char} {qtoks : List Token}
    (hq : tokensOf P.min_len txt = qtoks)
    (hitq : get_item_tokens P R = some qtoks)
    (hne : qtoks ≠ []) :
    ∃ res, search (dbItems vs) st txt none (fun _ => true) "w" = .ok res ∧
      (R.ID, (1 : Rat)) ∈ res ∧
      ∃ p rest2, res = p :: rest2 ∧ p.2 = 1 := by
  have hP : st.parameters = P := make_index_params hmk
  have hndidx := make_index_keys_nodup hmk
  have hIDs := dbItems_IDs_nodup vs
  have hqmem : ∀ q ∈ qtoks, score R q ≠ 0 := by
    intro q hqm
    exact (make_index_inv hmk).2.2.1 R hR q (by rw [hitq]; exact hqm)
  have hentry : ∀ q ∈ qtoks, ∃ hitsq, alookup q st.index = some hitsq ∧
      (R.ID, score R q) ∈ hitsq ∧ (hitsq.map Prod.fst).Nodup ∧
      ∀ p ∈ hitsq, filtOn (dbItems vs) (fun _ => true) p.1 = true := by
    intro q hqm
    have hqit : q ∈ (get_item_tokens P R).getD [] := by
      rw [hitq]
      exact hqm
    obtain ⟨hitsq, hent, hmem⟩ := make_index_entry_complete hmk hR hqit
    refine ⟨hitsq, alookup_eq_some_of_mem hndidx hent, hmem,
      make_index_entry_ids_nodup hmk hent, ?_⟩
    intro p hp
    rcases p with ⟨id, w⟩
    obtain ⟨x, hx, hxid, -, -⟩ := make_index_entry_weights hmk hent hp
    unfold filtOn
    rw [← hxid, dbGet_of_mem hIDs hx]
  have hfiltq : ∀ q ∈ qtoks,
      (get_token_matches (dbItems vs) st none (fun _ => true) q).filter
        (fun p => p.1 = R.ID) = [(R.ID, ((q, (1 : Rat), score R q) : Tup))] := by
    intro q hqm
    obtain ⟨hitsq, hal, hmem, hnd, hft⟩ := hentry q hqm
    rw [gtm_exact_eq hal hnd hft]
    have hnd2 : ((hitsq.map (fun p => (p.1, ((q, (1 : Rat), p.2) : Tup)))).map
        Prod.fst).Nodup := by
      rw [List.map_map]
      exact hnd
    have hmem2 : (R.ID, ((q, (1 : Rat), score R q) : Tup)) ∈
        hitsq.map (fun p => (p.1, ((q, (1 : Rat), p.2) : Tup))) :=
      List.mem_map.mpr ⟨(R.ID, score R q), hmem, rfl⟩
    exact filter_key_singleton hnd2 hmem2
  have hLfilter :
      (((qtoks.map (get_token_matches (dbItems vs) st none
          (fun _ => true))).flatten).filter (fun p => p.1 = R.ID)) =
      qtoks.map (fun q => (R.ID, ((q, (1 : Rat), score R q) : Tup))) := by
    rw [filter_flatten_eq, List.map_map]
    have hcong : qtoks.map ((fun l => l.filter (fun p => p.1 = R.ID)) ∘
        (get_token_matches (dbItems vs) st none (fun _ => true))) =
        qtoks.map (fun q => [(R.ID, ((q, (1 : Rat), score R q) : Tup))]) :=
      List.map_congr_left (fun q hqm => hfiltq q hqm)
    rw [hcong]
    exact flatten_map_singleton
      (fun q => (R.ID, ((q, (1 : Rat), score R q) : Tup))) qtoks
  obtain ⟨q0, hq0⟩ := List.exists_mem_of_ne_nil _ hne
  have hLkey : R.ID ∈ ((qtoks.map (get_token_matches (dbItems vs) st none
      (fun _ => true))).flatten).map Prod.fst := by
    have hmemf : (R.ID, ((q0, (1 : Rat), score R q0) : Tup)) ∈
        ((qtoks.map (get_token_matches (dbItems vs) st none
          (fun _ => true))).flatten).filter (fun p => p.1 = R.ID) := by
      rw [hLfilter]
      exact List.mem_map.mpr ⟨q0, hq0, rfl⟩
    exact List.mem_map.mpr ⟨_, List.mem_of_mem_filter hmemf, rfl⟩
  obtain ⟨ms, hms, hmseq⟩ := groupByID_mem_of_key hLkey
  rw [hLfilter] at hmseq
  have hmsval : ms = qtoks.map (fun q => ((q, (1 : Rat), score R q) : Tup)) := by
    rw [hmseq, List.map_map]
    exact List.map_congr_left (fun q hqm => rfl)
  have hms2 : (R.ID, ms) ∈ matchedGroups (dbItems vs) st none (fun _ => true)
      (tokensOf st.parameters.min_len txt) := by
    rw [hP, hq]
    exact hms
  have hres : ∀ g ∈ matchedGroups (dbItems vs) st none (fun _ => true)
      (tokensOf st.parameters.min_len txt),
      ∃ x, dbGet (dbItems vs) g.1 = some x ∧
        (get_item_tokens st.parameters x).isSome := by
    rw [hP]
    exact groups_resolved hmk
  obtain ⟨res, hsearch⟩ := search_ok_of_resolved (Or.inl rfl) hres
    (fun hcontra => absurd hcontra (by decide))
  obtain ⟨hits, hsh, hcase⟩ := search_ok_inv hsearch
  rcases hcase with ⟨-, res0, hsw, hres0⟩ | ⟨hl, -⟩
  · obtain ⟨hfm, -⟩ := scoreHits_ok_inv hsh
    have hdbR : dbGet (dbItems vs) R.ID = some R := dbGet_of_mem hIDs hR
    have hlen0 : qtoks.length ≠ 0 := fun h0 => hne (List.length_eq_zero.mp h0)
    have hhof : hitOf (dbItems vs) st.parameters (decide (("w" : String) = "w"))
        (R.ID, ms) =
        some (R.ID, (qtoks.map (score R)).sum, qtoks.length) := by
      generalize (decide (("w" : String) = "w")) = b
      unfold hitOf
      rw [hP]
      simp only [hdbR, Option.some_bind, hitq, hmsval]
      have hcfb := consume_full b (score R) qtoks qtoks (List.Perm.refl qtoks)
      rw [if_neg (by rw [hcfb.2]; exact hlen0), hcfb.1, hcfb.2]
    have hhit : (R.ID, ((qtoks.map (score R)).sum, qtoks.length)) ∈ hits := by
      rw [hfm]
      exact List.mem_filterMap.mpr ⟨(R.ID, ms), hms2, hhof⟩
    have hwl : (decide (("w" : String) = "w+l")) = false := by decide
    rw [hwl, scoresW_false_eq] at hsw
    injection hsw with hsw
    have hS : lookupMax st R.ID = (qtoks.map (score R)).sum := by
      unfold lookupMax
      rw [make_index_max_lookup hmk hR hitq hne]
      rfl
    have hSpos : 0 < (qtoks.map (score R)).sum := by
      have h1 : score R q0 ≤ (qtoks.map (score R)).sum := by
        apply List.single_le_sum
        · intro a ha
          obtain ⟨u, -, rfl⟩ := List.mem_map.mp ha
          exact hok.1 R u
        · exact List.mem_map.mpr ⟨q0, hq0, rfl⟩
      have h2 : 0 < score R q0 :=
        lt_of_le_of_ne (hok.1 R q0) (Ne.symm (hqmem q0 hq0))
      linarith
    have hqlen : (tokensOf st.parameters.min_len txt).length = qtoks.length := by
      rw [hP, hq]
    have hscore : (qtoks.map (score R)).sum / lookupMax st R.ID *
        (((qtoks.length : Nat) : Rat) /
          (((tokensOf st.parameters.min_len txt).length : Nat) : Rat)) = 1 := by
      rw [hS, hqlen]
      have hlenR : ((qtoks.length : Nat) : Rat) ≠ 0 := by
        exact_mod_cast hlen0
      rw [div_self (ne_of_gt hSpos), div_self hlenR, one_mul]
    have hRres0 : (R.ID, (1 : Rat)) ∈ res0 := by
      rw [← hsw]
      refine List.mem_map.mpr
        ⟨(R.ID, ((qtoks.map (score R)).sum, qtoks.length)), hhit, ?_⟩
      simp only
      rw [hscore]
    have hRres : (R.ID, (1 : Rat)) ∈ res := by
      rw [hres0]
      exact mem_sortDesc.mpr hRres0
    obtain ⟨p, rest2, hcons⟩ : ∃ p rest2, res = p :: rest2 := by
      cases hr : res with
      | nil =>
        rw [hr] at hRres
        cases hRres
      | cons a b => exact ⟨a, b, rfl⟩
    have hple : 1 ≤ p.2 := by
      have hsd : sortDesc res0 = p :: rest2 := by
        rw [← hres0, hcons]
      exact sortDesc_head_ge hsd (R.ID, 1) hRres0
    have hpub : p.2 ≤ 1 :=
      (weighted_score_bound hmk hok (Or.inl rfl) hsearch p
        (by rw [hcons]; exact List.mem_cons_self _ _)).2
    exact ⟨res, hsearch, hRres, p, rest2, hcons, le_antisymm hpub hple⟩
  · exact absurd hl (by decide)

/-! ### Concrete evaluations -/

theorem fuji_make_index_eval :
    make_index [rFuji] pOne (countScore pOne) = .ok stFuji := by
  simp +decide [rFuji, pOne, stFuji, make_index, dbItems, upsert, corpusToks, get_corpus,
    recFieldTexts, seqOpt, maskAll, Rec.attr, tokensOf, regexpTokenize, strip_accents,
    lowerChars, wordRuns, wordRunsAux, isWordChar, isort, insLE, dedupFirst,
    get_item_tokens, countScore, tokLE, joinNL, List.flatten]
  norm_num

theorem fuji_search_eval :
    search (dbItems [rFuji]) stFuji "fuji fuji".data none (fun _ => true) "w" =
      .ok [("A", 1)] := by
  simp +decide [rFuji, pOne, stFuji, search, matchedGroups, get_token_matches,
    rawTokenMatches, groupByID, insertTup, bestTup, filtOn, dbGet, dbItems, upsert,
    tokensOf, regexpTokenize, strip_accents, lowerChars, wordRuns, wordRunsAux,
    isWordChar, scoreHits, get_item_tokens, recFieldTexts, seqOpt, maskAll, Rec.attr,
    consume, removeFirst, scoresW, lookupMax, sortDesc, insertDesc, alookup,
    Except.map, Except.bind, bind, pure, Except.pure]
  norm_num [Except.bind, bind, sortDesc, insertDesc]

theorem fuji_item_tokens_eval :
    get_item_tokens pOne rFuji = some ["fuji".data, "fuji".data] := by
  decide

theorem ab_make_index_eval :
    make_index [rFuji, rFujiB] pOne (countScore pOne) = .ok stAB := by
  simp +decide [rFuji, rFujiB, pOne, stAB, make_index, dbItems, upsert, corpusToks,
    get_corpus, recFieldTexts, seqOpt, maskAll, Rec.attr, tokensOf, regexpTokenize,
    strip_accents, lowerChars, wordRuns, wordRunsAux, isWordChar, isort, insLE,
    dedupFirst, get_item_tokens, countScore, tokLE, joinNL, List.flatten]
  norm_num

theorem ab_search_eval :
    search (dbItems [rFuji, rFujiB]) stAB "fuji fuji".data none (fun _ => true) "w" =
      .ok [("A", 1), ("B", 1)] := by
  simp +decide [rFuji, rFujiB, pOne, stAB, search, matchedGroups, get_token_matches,
    rawTokenMatches, groupByID, insertTup, bestTup, filtOn, dbGet, dbItems, upsert,
    tokensOf, regexpTokenize, strip_accents, lowerChars, wordRuns, wordRunsAux,
    isWordChar, scoreHits, get_item_tokens, recFieldTexts, seqOpt, maskAll, Rec.attr,
    consume, removeFirst, scoresW, lookupMax, sortDesc, insertDesc, alookup,
    Except.map, Except.bind, bind, pure, Except.pure]
  norm_num [Except.bind, bind, sortDesc, insertDesc]

theorem loc_make_index_eval :
    make_index [rLoc] pLoc (countScore pLoc) = .ok stLoc := by
  simp +decide [rLoc, pLoc, stLoc, make_index, dbItems, upsert, corpusToks, get_corpus,
    recFieldTexts, seqOpt, maskAll, Rec.attr, tokensOf, regexpTokenize, strip_accents,
    lowerChars, wordRuns, wordRunsAux, isWordChar, isort, insLE, dedupFirst,
    get_item_tokens, countScore, tokLE, joinNL, List.flatten]

theorem loc_search_eval :
    search (dbItems [rLoc]) stLoc "kyoto".data none (fun _ => true) "l" =
      .error "AttributeError: NoneType object has no attribute strip" := by
  simp +decide [rLoc, pLoc, stLoc, search, matchedGroups, get_token_matches,
    rawTokenMatches, groupByID, insertTup, bestTup, filtOn, dbGet, dbItems, upsert,
    tokensOf, regexpTokenize, strip_accents, lowerChars, wordRuns, wordRunsAux,
    isWordChar, scoreHits, get_item_tokens, recFieldTexts, seqOpt, maskAll, Rec.attr,
    consume, removeFirst, scoresL, resolveText, alookup,
    Except.map, Except.bind, bind, pure, Except.pure]

theorem none_make_index_eval :
    make_index [rNone] pOne (countScore pOne) =
      .error "TypeError: sequence item: expected str instance" := by
  simp [rNone, pOne, make_index, dbItems, upsert, corpusToks, get_corpus,
    recFieldTexts, seqOpt, maskAll, Rec.attr]

theorem mask_make_index_eval :
    make_index [rFuji] pMask (countScore pMask) = .ok stMaskFuji := by
  simp +decide [rFuji, pMask, stMaskFuji, make_index, dbItems, upsert, corpusToks,
    get_corpus, recFieldTexts, seqOpt, maskAll, Mask.mask, maskSubF, Rec.attr,
    tokensOf, regexpTokenize, strip_accents, lowerChars, wordRuns, wordRunsAux,
    isWordChar, isort, insLE, dedupFirst, get_item_tokens, countScore, tokLE,
    joinNL, List.flatten, alookup]
  norm_num

/-! ### The claims -/

/-- C1: after make_index, the stored per-record maximum score is the sum of
the score of every occurrence of the record's own tokens (get_item_tokens
with multiplicity) — not the sum of the record's distinct stored weights —
and this stored value is exactly the denominator lookupMax that search uses
to normalize weighted-mode scores. -/
theorem elie_C1 {vs : List Rec} {P : Params} {score : Rec → Token → Rat}
    {st : Indexed} (hmk : make_index vs P score = .ok st) {x : Rec}
    (hx : x ∈ dbItems vs) {ts : List Token}
    (hts : get_item_tokens P x = some ts) (hne : ts ≠ []) :
    alookup x.ID st.max_scores = some ((ts.map (score x)).sum) ∧
    lookupMax st x.ID = (ts.map (score x)).sum := by
  have h := make_index_max_lookup hmk hx hts hne
  refine ⟨h, ?_⟩
  unfold lookupMax
  rw [h]
  rfl

/-- Witness for C1 on the record whose text is the token fuji twice. -/
theorem elie_C1_witness :
    alookup rFuji.ID stFuji.max_scores =
      some ((["fuji".data, "fuji".data].map (countScore pOne rFuji)).sum) ∧
    lookupMax stFuji rFuji.ID =
      (["fuji".data, "fuji".data].map (countScore pOne rFuji)).sum :=
  elie_C1 fuji_make_index_eval (by decide) fuji_item_tokens_eval (by decide)

/-- Counterexample for C1 as stated by the spec: for the record of text
fuji fuji the stored maximum score is 4 (the count 2 summed over the two
occurrences), while the sum of the record's distinct stored index weights
is only 2. -/
theorem elie_C1_cex :
    make_index [rFuji] pOne (countScore pOne) = .ok stFuji ∧
    alookup "A" stFuji.max_scores = some 4 ∧
    (stFuji.index.map (fun e => (alookup "A" e.2).getD 0)).sum = 2 ∧
    (4 : Rat) ≠ 2 := by
  refine ⟨fuji_make_index_eval, by decide, ?_, by norm_num⟩
  norm_num [stFuji, alookup]

/-- C2: searching an indexed collection — built from any score matrix with
the sign structure of the count and TF-IDF matrices — with a record's own
corpus text, weighted scoring and exact matching yields that record with
score exactly 1, and the top-ranked result also has score exactly 1; the
record itself is first only up to ties between equal scores (see the
counterexample). -/
theorem elie_C2 {vs : List Rec} {P : Params} {score : Rec → Token → Rat}
    {st : Indexed} {R : Rec}
    (hmk : make_index vs P score = .ok st) (hok : ScoreOK P score)
    (hR : R ∈ dbItems vs)
    {txt : List Char} (hcorp : get_corpus P R = some txt)
    (hne : tokensOf P.min_len txt ≠ []) :
    ∃ res, search (dbItems vs) st txt none (fun _ => true) "w" = .ok res ∧
      (R.ID, (1 : Rat)) ∈ res ∧
      ∃ p rest2, res = p :: rest2 ∧ p.2 = 1 := by
  have hitq : get_item_tokens P R = some (tokensOf P.min_len txt) := by
    rw [← corpusToks_eq_item_tokens]
    unfold corpusToks
    rw [hcorp]
    rfl
  exact self_query_core hmk hok hR rfl hitq hne

/-- Witness for C2 on the one-record collection. -/
theorem elie_C2_witness :
    ∃ res, search (dbItems [rFuji]) stFuji "fuji fuji".data none
        (fun _ => true) "w" = .ok res ∧
      (rFuji.ID, (1 : Rat)) ∈ res ∧ ∃ p rest2, res = p :: rest2 ∧ p.2 = 1 :=
  elie_C2 fuji_make_index_eval ⟨countScore_nonneg pOne, countScore_supp pOne⟩
    (by decide) (by decide) (by decide)

/-- Counterexample for C2 as stated by the spec: with two records of
identical text, searching with the text of the second record B returns B
with score 1 but ranked second, behind the tying earlier record A. -/
theorem elie_C2_cex :
    make_index [rFuji, rFujiB] pOne (countScore pOne) = .ok stAB ∧
    get_corpus pOne rFujiB = some "fuji fuji".data ∧
    search (dbItems [rFuji, rFujiB]) stAB "fuji fuji".data none
      (fun _ => true) "w" = .ok [("A", 1), ("B", 1)] ∧
    rFujiB.ID = "B" ∧ ("A" : String) ≠ "B" :=
  ⟨ab_make_index_eval, by decide, ab_search_eval, rfl, by decide⟩

/-- C3: the fuzzy budget of a query token is the integer part of the base-2
logarithm of its length minus one, clamped to 0 when below 1; an index token
is accepted exactly when its edit distance to the query token is within the
budget; 3-character tokens only match themselves, 8-character tokens
tolerate at least one error, 16-character tokens at least two. -/
theorem elie_C3 :
    (∀ q t : Token, fuzzyAccepts q t = true ↔ leven t q ≤ mismatch_rule q) ∧
    (∀ q : Token, 1 ≤ q.length →
      2 ^ intLog2 q.length ≤ q.length ∧ q.length < 2 ^ (intLog2 q.length + 1) ∧
      mismatch_rule q =
        if intLog2 q.length < 2 then 0 else intLog2 q.length - 1) ∧
    (∀ q t : Token, q.length = 3 → (fuzzyAccepts q t = true ↔ t = q)) ∧
    (∀ q : Token, q.length = 8 → 1 ≤ mismatch_rule q) ∧
    (∀ q : Token, q.length = 16 → 2 ≤ mismatch_rule q) := by
  refine ⟨?_, ?_, ?_, ?_, ?_⟩
  · intro q t
    unfold fuzzyAccepts acceptsWith
    exact decide_eq_true_iff
  · intro q h1
    obtain ⟨hlo, hhi⟩ := intLog2_spec q.length h1
    exact ⟨hlo, hhi, mismatch_rule_eq rfl h1⟩
  · intro q t h3
    have hm : mismatch_rule q = 0 := by
      rw [mismatch_rule_eq h3 (by omega)]
      decide
    unfold fuzzyAccepts acceptsWith
    rw [hm]
    constructor
    · intro h
      have h0 : leven t q = 0 := Nat.le_zero.mp (of_decide_eq_true h)
      exact (leven_eq_zero_iff t q).mp h0
    · intro h
      subst h
      exact decide_eq_true (Nat.le_of_eq ((leven_eq_zero_iff t t).mpr rfl))
  · intro q h8
    rw [mismatch_rule_eq h8 (by omega)]
    decide
  · intro q h16
    rw [mismatch_rule_eq h16 (by omega)]
    decide

/-- C4: the consumption loop of search consumes each occurrence of a record
token at most once: consumed matches and leftover occurrences add up to the
subject exactly, leftovers never exceed the original occurrence counts, a
match whose token has no occurrence left changes neither the raw score nor
the matched count, and a query token repeated k times against a record
yields min(k, occurrences) matches. -/
theorem elie_C4 :
    (∀ (useId : Bool) (ms : List Tup) (subj : List Token),
      (consume useId ms subj).2.1 + (consume useId ms subj).2.2.length =
        subj.length) ∧
    (∀ (useId : Bool) (ms : List Tup) (subj : List Token) (u : Token),
      (consume useId ms subj).2.2.count u ≤ subj.count u) ∧
    (∀ (useId : Bool) (t : Token) (idn sc : Rat) (ms : List Tup)
      (subj : List Token), t ∉ subj →
      consume useId ((t, idn, sc) :: ms) subj = consume useId ms subj) ∧
    (∀ (useId : Bool) (t : Token), ∀ (ms : List Tup) (subj : List Token),
      (∀ tp ∈ ms, tp.1 = t) →
      (consume useId ms subj).2.1 = min ms.length (subj.count t)) :=
  ⟨consume_n_add_leftover, consume_count_le, consume_skip, consume_same_token⟩

/-- C5: on an index built by make_index from any score matrix with the sign
structure of the count and TF-IDF matrices, every score search returns in
weighted and in combined mode lies in the interval from 0 to 1. -/
theorem elie_C5 {vs : List Rec} {P : Params} {score : Rec → Token → Rat}
    {st : Indexed} {query : List Char} {rule : MRule} {filt : Rec → Bool}
    {scoring : String} {res : List (String × Rat)}
    (hmk : make_index vs P score = .ok st) (hok : ScoreOK P score)
    (hsc : scoring = "w" ∨ scoring = "w+l")
    (h : search (dbItems vs) st query rule filt scoring = .ok res) :
    ∀ p ∈ res, 0 ≤ p.2 ∧ p.2 ≤ 1 :=
  weighted_score_bound hmk hok hsc h

/-- Witness for C5 on the one-record collection. -/
theorem elie_C5_witness : (0 : Rat) ≤ 1 ∧ (1 : Rat) ≤ 1 :=
  elie_C5 fuji_make_index_eval ⟨countScore_nonneg pOne, countScore_supp pOne⟩
    (Or.inl rfl) fuji_search_eval ("A", 1) (List.mem_singleton.mpr rfl)

/-- C6: code bug — search does not leave the built index unchanged: the
exact-match branch of get_token_matches reads self._index[value] on the
defaultdict built by make_index, so a query token absent from the index is
inserted with an empty hit list; only the fuzzy branch, which iterates the
existing entries, leaves the index intact. -/
theorem elie_C6 :
    indexAfterSearch stFuji "kyoto".data none ≠ stFuji.index ∧
    indexAfterSearch stFuji "kyoto".data none =
      stFuji.index ++ [("kyoto".data, [])] ∧
    (∀ (st : Indexed) (query : List Char) (f : Token → Nat),
      indexAfterSearch st query (some f) = st.index) := by
  refine ⟨by decide, by decide, ?_⟩
  intro st query f
  rfl

/-- C7: an unindexed database and an unknown scoring mode are hard errors,
and with a built index, a recognized scoring mode and resolvable record
texts the search returns a ranked list; the corrected part is the third
error case of the counterexample: a valid scoring mode that must resolve a
None text also raises (the AttributeError of strip() on None, reached by
get_norm_leven_dist with simplify=True). -/
theorem elie_C7 :
    (∀ (vs : List Rec) (query : List Char) (rule : MRule) (filt : Rec → Bool)
      (scoring : String),
      dbSearch vs none query rule filt scoring =
        .error "ValueError: Database must be indexed prior to search") ∧
    (∀ (items : List Rec) (st : Indexed) (query : List Char) (rule : MRule)
      (filt : Rec → Bool) (scoring : String),
      scoring ≠ "w" → scoring ≠ "l" → scoring ≠ "w+l" →
      ∃ e, search items st query rule filt scoring = .error e) ∧
    (∀ (vs : List Rec) (P : Params) (score : Rec → Token → Rat) (st : Indexed)
      (query : List Char) (rule : MRule) (filt : Rec → Bool) (scoring : String),
      make_index vs P score = .ok st →
      (scoring = "w" ∨ scoring = "w+l" ∨ scoring = "l") →
      ((scoring = "w+l" ∨ scoring = "l") →
        ∀ g ∈ matchedGroups (dbItems vs) st rule filt
            (tokensOf st.parameters.min_len query),
          ∃ txt, resolveText (dbItems vs) g.1 = .ok txt) →
      ∃ res, search (dbItems vs) st query rule filt scoring = .ok res) := by
  refine ⟨fun vs query rule filt scoring => rfl, ?_, ?_⟩
  · intro items st query rule filt scoring h1 h2 h3
    cases hsh : scoreHits items st.parameters (scoring = "w")
        (matchedGroups items st rule filt
          (tokensOf st.parameters.min_len query)) with
    | error e =>
      refine ⟨e, ?_⟩
      simp only [search, hsh]
    | ok hits =>
      refine ⟨"ValueError: unknown scoring method", ?_⟩
      simp only [search, hsh]
      rw [if_neg (fun hc => hc.elim h1 h3), if_neg h2]
  · intro vs P score st query rule filt scoring hmk hval htxt
    have hP := make_index_params hmk
    have hres : ∀ g ∈ matchedGroups (dbItems vs) st rule filt
        (tokensOf st.parameters.min_len query),
        ∃ x, dbGet (dbItems vs) g.1 = some x ∧
          (get_item_tokens st.parameters x).isSome := by
      rw [hP]
      exact groups_resolved hmk
    exact search_ok_of_resolved hval hres htxt

/-- Counterexample for C7 as stated by the spec: the record indexed on its
location but whose text is a None value makes search raise an AttributeError
under the valid scoring mode l, a third failure case beyond the two the
spec lists. -/
theorem elie_C7_cex :
    make_index [rLoc] pLoc (countScore pLoc) = .ok stLoc ∧
    search (dbItems [rLoc]) stLoc "kyoto".data none (fun _ => true) "l" =
      .error "AttributeError: NoneType object has no attribute strip" ∧
    (("l" : String) = "w" ∨ ("l" : String) = "l" ∨ ("l" : String) = "w+l") :=
  ⟨loc_make_index_eval, loc_search_eval, Or.inr (Or.inl rfl)⟩

/-- C8: an index built without masks dumps successfully and loads back to
the identical index state, so every later search of the loaded index equals
the original search; the corrected part is the masks case of the
counterexample, where dump_index itself raises. -/
theorem elie_C8 {items : List Rec} {st : Indexed}
    (hm : st.parameters.masks = none)
    (hids : st.index.all
      (fun e => e.2.all (fun p => (dbGet items p.1).isSome)) = true) :
    ∃ dd, dump_index st = .ok dd ∧ load_index items dd = .ok st ∧
      ∀ (st2 : Indexed), load_index items dd = .ok st2 →
        ∀ (query : List Char) (rule : MRule) (filt : Rec → Bool)
          (scoring : String),
          search items st2 query rule filt scoring =
            search items st query rule filt scoring := by
  rcases st with ⟨idx, ⟨m, ml, k, mk⟩, maxs⟩
  have hmk2 : mk = none := hm
  subst hmk2
  refine ⟨{ index := idx, method := m, min_len := ml, keys := k,
            max_scores := maxs }, rfl, ?_, ?_⟩
  · simp only [load_index, hids, if_true]
  · intro st2 hload query rule filt scoring
    simp only [load_index, hids, if_true] at hload
    injection hload with hload
    rw [← hload]

/-- Witness for C8 on the index of the one-record collection. -/
theorem elie_C8_witness :
    ∃ dd, dump_index stFuji = .ok dd ∧
      load_index (dbItems [rFuji]) dd = .ok stFuji ∧
      ∀ (st2 : Indexed), load_index (dbItems [rFuji]) dd = .ok st2 →
        ∀ (query : List Char) (rule : MRule) (filt : Rec → Bool)
          (scoring : String),
          search (dbItems [rFuji]) st2 query rule filt scoring =
            search (dbItems [rFuji]) stFuji query rule filt scoring :=
  elie_C8 (by decide) (by decide)

/-- Counterexample for C8 as stated by the spec: an index built with a Mask
object cannot be dumped at all — json.dump raises on the Mask stored in the
parameters — so the dump/load round trip fails for such indexes. -/
theorem elie_C8_cex :
    make_index [rFuji] pMask (countScore pMask) = .ok stMaskFuji ∧
    dump_index stMaskFuji =
      .error "TypeError: Object of type Mask is not JSON serializable" :=
  ⟨mask_make_index_eval, rfl⟩

/-- C9: a record with a None attribute value makes make_index raise the
join TypeError (the corrected part: missing values are not treated as empty
strings), while a record whose selected values yield zero tokens
contributes no index entry, no maximum score and never appears in any
search result. -/
theorem elie_C9 :
    (∀ (vs : List Rec) (P : Params) (score : Rec → Token → Rat),
      (∃ x ∈ dbItems vs, get_corpus P x = none) →
      make_index vs P score =
        .error "TypeError: sequence item: expected str instance") ∧
    (∀ (vs : List Rec) (P : Params) (score : Rec → Token → Rat) (st : Indexed),
      make_index vs P score = .ok st → ScoreOK P score →
      ∀ x ∈ dbItems vs, get_item_tokens P x = some [] →
        (∀ t hits2, (t, hits2) ∈ st.index → ∀ w, (x.ID, w) ∉ hits2) ∧
        alookup x.ID st.max_scores = none ∧
        (∀ (query : List Char) (rule : MRule) (filt : Rec → Bool)
          (scoring : String) (res : List (String × Rat)),
          search (dbItems vs) st query rule filt scoring = .ok res →
          x.ID ∉ res.map Prod.fst)) := by
  constructor
  · rintro vs P score ⟨x, hx, hcorp⟩
    have hnone : corpusToks P x = none := by
      unfold corpusToks
      rw [hcorp]
      rfl
    have hseq : seqOpt ((dbItems vs).map (corpusToks P)) = none :=
      seqOpt_eq_none_of_mem (List.mem_map.mpr ⟨x, hx, hnone⟩)
    simp only [make_index]
    rw [hseq]
  · intro vs P score st hmk hok x hx hx0
    have hIDs := dbItems_IDs_nodup vs
    have hnotok : ∀ t : Token, score x t = 0 := by
      intro t
      by_contra hne
      have := hok.2 x t hne
      rw [hx0] at this
      cases this
    refine ⟨?_, ?_, ?_⟩
    · intro t hits2 hent w hw
      obtain ⟨y, hy, hyid, hweq, hwne⟩ := make_index_entry_weights hmk hent hw
      have hyx : y = x := by
        have h1 := dbGet_of_mem hIDs hy
        rw [hyid] at h1
        exact dbGet_unique hIDs hx h1
      rw [hyx] at hwne
      exact hwne (hnotok t)
    · rw [alookup_eq_none_iff]
      intro hmem
      obtain ⟨-, -, -, -, hmax⟩ := make_index_inv hmk
      rw [hmax] at hmem
      obtain ⟨p, hp, hpid⟩ := List.mem_map.mp hmem
      obtain ⟨y, hy, hyp⟩ := List.mem_filterMap.mp hp
      cases hyt : get_item_tokens P y with
      | none =>
        rw [hyt] at hyp
        cases hyp
      | some ts =>
        cases ts with
        | nil =>
          rw [hyt] at hyp
          cases hyp
        | cons u us =>
          rw [hyt] at hyp
          injection hyp with hyp
          have hyid : y.ID = x.ID := by
            rw [← hpid, ← hyp]
          have hyx : y = x := by
            have h1 := dbGet_of_mem hIDs hy
            rw [hyid] at h1
            exact dbGet_unique hIDs hx h1
          rw [hyx, hx0] at hyt
          exact absurd hyt (by simp)
    · intro query rule filt scoring res hs hidres
      obtain ⟨y, hy, hyid, -, t, hits2, w, -, -, -, -, -, -, hwne⟩ :=
        res_key_inv hmk hs hidres
      have hyx : y = x := by
        have h1 := dbGet_of_mem hIDs hy
        rw [hyid] at h1
        exact dbGet_unique hIDs hx h1
      rw [hyx] at hwne
      exact hwne (hnotok t)

/-- Counterexample for C9 as stated by the spec: a record whose text
attribute is a None value is not treated as an empty string — building the
index over it raises the TypeError of joining a None value. -/
theorem elie_C9_cex :
    rNone.attr "text" = none ∧
    get_corpus pOne rNone = none ∧
    make_index [rNone] pOne (countScore pOne) =
      .error "TypeError: sequence item: expected str instance" :=
  ⟨by decide, by decide, none_make_index_eval⟩

/-- C10: the identifiers search returns are exactly the records that pass
the filtering predicate and hold at least one stored index token accepted
for some query token under the active matching rule — for every scoring
mode — and a query yielding no tokens returns the empty list without
raising. -/
theorem elie_C10 {vs : List Rec} {P : Params} {score : Rec → Token → Rat}
    {st : Indexed} {query : List Char} {rule : MRule} {filt : Rec → Bool}
    {scoring : String} {res : List (String × Rat)}
    (hmk : make_index vs P score = .ok st) (hok : ScoreOK P score)
    (h : search (dbItems vs) st query rule filt scoring = .ok res) :
    (∀ id, id ∈ res.map Prod.fst ↔
      ∃ x ∈ dbItems vs, x.ID = id ∧ filt x = true ∧
        ∃ t hits2 w, (t, hits2) ∈ st.index ∧ (id, w) ∈ hits2 ∧
          ∃ q ∈ tokensOf P.min_len query, ruleAccepts rule q t = true) ∧
    (tokensOf P.min_len query = [] → res = []) := by
  have hP := make_index_params hmk
  constructor
  · intro id
    constructor
    · intro hid
      obtain ⟨x, hx, hxid, hfx, t, hits2, w, hent, hw, q, hq, hacc, -, -⟩ :=
        res_key_inv hmk h hid
      exact ⟨x, hx, hxid, hfx, t, hits2, w, hent, hw, q, hq, hacc⟩
    · rintro ⟨x, hx, hxid, hfx, t, hits2, w, hent, hw, q, hq, hacc⟩
      exact res_key_complete hmk hok h hx hxid hfx hent hw hq hacc
  · intro hq0
    obtain ⟨hits, hsh, hcase⟩ := search_ok_inv h
    rw [hP, hq0] at hsh
    simp only [matchedGroups, List.map_nil, List.flatten_nil, groupByID,
      List.foldl_nil, scoreHits] at hsh
    injection hsh with hsh
    rcases hcase with ⟨-, res0, hsw, hres0⟩ | ⟨-, res0, hsl, hres0⟩
    · rw [← hsh] at hsw
      simp only [scoresW] at hsw
      injection hsw with hsw
      rw [hres0, ← hsw]
      rfl
    · rw [← hsh] at hsl
      simp only [scoresL] at hsl
      injection hsl with hsl
      rw [hres0, ← hsl]
      rfl

/-- Witness for C10 on the one-record collection. -/
theorem elie_C10_witness :
    ("A" : String) ∈ [(("A" : String), (1 : Rat))].map Prod.fst ↔
      ∃ x ∈ dbItems [rFuji], x.ID = "A" ∧ (fun _ : Rec => true) x = true ∧
        ∃ t hits2 w, (t, hits2) ∈ stFuji.index ∧ (("A" : String), w) ∈ hits2 ∧
          ∃ q ∈ tokensOf pOne.min_len "fuji fuji".data,
            ruleAccepts none q t = true :=
  (elie_C10 fuji_make_index_eval
    ⟨countScore_nonneg pOne, countScore_supp pOne⟩ fuji_search_eval).1 "A"
